import Mathlib

/-!
# swca1: a shallow embedding of the hash generator and its specification

The development follows the three Go packages of the repository:

* `strings`  (`internal/strings/strings.go`): runes with a category bit mask and
  sequences of them;
* `hash64`   (`internal/hash64/hash64.go`): the SHA-512 / FNV-64 combiner;
* `swca1`    (`swca1.go`): options, complexity rules and the generator itself.

Go values are embedded as follows.

* A Go `string` is a `List Char` (the sequence of its code points; the text is
  taken to be valid UTF-8, so ranging over it and converting it to `[]rune`
  both give exactly this list).  A `rune` is a `Char`.
* Go `int` is `Int`; a byte is a `Nat`.
* An `error` is `Option Error`, `none` being `nil`.
* Pointers and in-place updates become explicit state passing.
* Everything the repository takes from the Go standard library (`unicode`,
  `crypto/sha512`, `hash/fnv`, `math/rand`, `math.Sin`) is a field of `Env`, so
  every theorem holds for whatever those functions compute.
* The unbounded attempt loop of `Write` takes an explicit bound on the number
  of iterations (`fuel`) and answers `none` when the bound is hit.
-/

set_option autoImplicit false
set_option linter.dupNamespace false

namespace swca1

/-! ## The standard library, as parameters -/

/-- The functions of Go package `unicode` that the repository calls. -/
structure Unicode where
  IsLetter : Char → Bool
  IsNumber : Char → Bool
  IsSymbol : Char → Bool
  IsGraphic : Char → Bool
  IsDigit : Char → Bool
  IsMark : Char → Bool
  IsControl : Char → Bool
  IsLower : Char → Bool
  IsUpper : Char → Bool
  IsPrint : Char → Bool
  IsPunct : Char → Bool
  IsSpace : Char → Bool
  IsTitle : Char → Bool
  ToUpper : Char → Char

/-- A value `num / den` of `math.Sin`.  Every finite `float64` is such a
fraction, so nothing is lost by returning the result of `math.Sin` in this
form. -/
structure Frac where
  num : Int
  den : Int
deriving DecidableEq, Repr

/-- The standard-library functions the generator is built on.

* `sha512Sum b` is the SHA-512 digest of the bytes `b` (64 bytes);
* `fnvSum64 b` is the FNV-64 checksum of `b`;
* `randSeed s` is the state of a `rand.Rand` right after `Seed(s)`;
* `randShuffle st n` is what `Shuffle(n, swap)` does from state `st`: the
  pairs `(i, j)` it passes to `swap`, in order, and the state it leaves;
* `mathSin x` is `math.Sin(float64(x))`. -/
structure Env where
  unicode : Unicode
  sha512Sum : List Nat → List Nat
  fnvSum64 : List Nat → Nat
  randSeed : Int → Nat
  randShuffle : Nat → Nat → List (Nat × Nat) × Nat
  mathSin : Int → Frac
  sha512Sum_length : ∀ b, (sha512Sum b).length = 64
  randShuffle_lt : ∀ st n p, p ∈ (randShuffle st n).1 → p.1 < n ∧ p.2 < n
  mathSin_den : ∀ x, 0 < (mathSin x).den
  mathSin_range : ∀ x, -(mathSin x).den ≤ (mathSin x).num ∧ (mathSin x).num ≤ (mathSin x).den

/-! ## Package `strings` -/

namespace strings

/-- Type: the bit mask of rune types (`type Type int`). -/
abbrev Typ := Nat

/-- Is reports whether the type includes a given one: `t&t2 == t2`. -/
def Typ.Is (t t2 : Typ) : Bool := t &&& t2 == t2

/-- Equal reports whether the type is equal to a given one. -/
def Typ.Equal (t t2 : Typ) : Bool := t == t2

def Letter : Typ := 1 <<< 0
def Number : Typ := 1 <<< 1
def Symbol : Typ := 1 <<< 2
def Graphic : Typ := 1 <<< 3
def Digit : Typ := 1 <<< 4
def Mark : Typ := 1 <<< 5
def Control : Typ := 1 <<< 6
def Lower : Typ := 1 <<< 7
def Upper : Typ := 1 <<< 8
def Print : Typ := 1 <<< 9
def Punct : Typ := 1 <<< 10
def Space : Typ := 1 <<< 11
def Title : Typ := 1 <<< 12

/-- The function type `is`: `func(typ Type, r rune) Type`. -/
abbrev is := Typ → Char → Typ

/-- The classifier `foreach`: runs the given classifiers in order, threading the type through. -/
def foreach (fs : List is) : is :=
  fun typ r => fs.foldl (fun typ i => i typ r) typ

/-- The classifier `when`: ors `thn` into the current type when the test holds. -/
def «when» (test : Char → Bool) (thn : Typ) : is :=
  fun current r => if test r then current ||| thn else current

/-- The table `rtype` of the thirteen Unicode tests. -/
def rtype (U : Unicode) : is :=
  foreach [
    «when» U.IsLetter Letter,
    «when» U.IsNumber Number,
    «when» U.IsSymbol Symbol,
    «when» U.IsGraphic Graphic,
    «when» U.IsDigit Digit,
    «when» U.IsMark Mark,
    «when» U.IsControl Control,
    «when» U.IsLower Lower,
    «when» U.IsUpper Upper,
    «when» U.IsPrint Print,
    «when» U.IsPunct Punct,
    «when» U.IsSpace Space,
    «when» U.IsTitle Title]

/-- Rune: a std rune together with its Unicode type. -/
structure Rune where
  rune : Char
  typ : Typ
deriving DecidableEq, Repr

/-- The zero value of `Rune`, which `Pick` returns out of range. -/
def Rune.zero : Rune := ⟨Char.ofNat 0, 0⟩

/-- NewRune returns the Rune representation of a std rune. -/
def NewRune (U : Unicode) (r : Char) : Rune := { rune := r, typ := rtype U 0 r }

/-- Equal reports whether the rune is equal to the given one. -/
def Rune.Equal (r r2 : Rune) : Bool := r.rune == r2.rune

/-- Same reports whether the rune is equal to the given one regardless of case. -/
def Rune.Same (U : Unicode) (r r2 : Rune) : Bool := U.ToUpper r.rune == U.ToUpper r2.rune

/-- OfType reports whether the rune has the same type as the given one. -/
def Rune.OfType (r r2 : Rune) : Bool := r.typ.Equal r2.typ

/-- Is reports whether the type of the rune includes the given one. -/
def Rune.Is (r : Rune) (typ : Typ) : Bool := r.typ.Is typ

/-- String: a slice of Runes. -/
abbrev String := List Rune

/-- New returns the String representation of a std string. -/
def New (U : Unicode) (s : List Char) : String := s.map (NewRune U)

/-- Len returns the string length. -/
def String.Len (s : String) : Int := s.length

/-- Empty reports whether the String is of length 0. -/
def String.Empty (s : String) : Bool := s.length == 0

/-- Copy returns a copy of the String. -/
def String.Copy (s : String) : String := s

/-- The closure `func(i, j int) { s[i], s[j] = s[j], s[i] }` that `Shuffle` hands
to `rand.Shuffle`.  It is called with indices below `len(s)` only. -/
def String.swap (s : String) (i j : Nat) : String :=
  match s[i]?, s[j]? with
  | some a, some b => (s.set i b).set j a
  | _, _ => s

/-- Shuffle pseudo-randomizes the order of runes: `rnd.Shuffle` swaps the elements
of the receiver in place, then a copy of it is returned.  The result is
(the receiver after the call, the returned copy, the state of `rnd` after the call). -/
def String.Shuffle (E : Env) (s : String) (rnd : Nat) : String × String × Nat :=
  let r := E.randShuffle rnd s.length
  let s := r.1.foldl (fun s p => s.swap p.1 p.2) s
  (s, s.Copy, r.2)

/-- Remove removes element i from the String if i is in range. -/
def String.Remove (s : String) (i : Int) : String × Bool :=
  if i < 0 ∨ i ≥ (s.length : Int) then (s, false)
  else (s.take i.toNat ++ s.drop (i.toNat + 1), true)

/-- Pick returns Rune i of the String if i is in range. -/
def String.Pick (s : String) (i : Int) : Rune × Bool :=
  if i < 0 ∨ i ≥ (s.length : Int) then (Rune.zero, false)
  else (s.getD i.toNat Rune.zero, true)

/-- Last returns the last Rune of the String. -/
def String.Last (s : String) : Rune × Bool := s.Pick ((s.length : Int) - 1)

/-- String returns the std string of a String. -/
def String.String (s : strings.String) : List Char := s.map Rune.rune

/-- Bytes returns the byte slice of a String: the UTF-8 encoding of its runes. -/
def String.Bytes (s : strings.String) : List Nat :=
  s.String.flatMap (fun c => (String.utf8EncodeChar c).map UInt8.toNat)

end strings

/-! ## Package `hash64` -/

/-- The combiner `hash64`: SHA-512 and FNV-64 fed through one `io.MultiWriter`.
Both digests are functions of all the bytes written since the last `Reset`, so
those bytes are the whole state. -/
structure hash64 where
  written : List Nat

namespace hash64

/-- New returns the combiner with nothing written. -/
def New : hash64 := ⟨[]⟩

/-- Write feeds both hashes; neither ever fails, so the error is always `nil`. -/
def Write (h : hash64) (data : List Nat) : hash64 × Int :=
  (⟨h.written ++ data⟩, data.length)

/-- Sum appends the SHA-512 digest to `b`. -/
def Sum (E : Env) (h : hash64) (b : List Nat) : List Nat := b ++ E.sha512Sum h.written

/-- Sum64 is the FNV-64 checksum. -/
def Sum64 (E : Env) (h : hash64) : Nat := E.fnvSum64 h.written

/-- Size is `sha512.Size`. -/
def Size (_h : hash64) : Int := 64

/-- Reset resets both hashes. -/
def Reset (_h : hash64) : hash64 := ⟨[]⟩

end hash64

/-! ## Package `strings` of the standard library (`stdstrings`) -/

namespace stdstrings

/-- Index of the first occurrence of `sep` in `s`, or `-1` (`strings.Index` with a
one-character separator). -/
def Index (s : List Char) (sep : Char) : Int :=
  if sep ∈ s then (s.indexOf sep : Int) else -1

/-- The call `strings.SplitN(s, sep, 2)` with a one-character separator: `s` itself
when `sep` does not occur, else the text before the first `sep` and the unsplit
remainder after it. -/
def SplitN2 (s : List Char) (sep : Char) : List (List Char) :=
  let m := Index s sep
  if m < 0 then [s] else [s.take m.toNat, s.drop (m.toNat + 1)]

end stdstrings

/-! ## Package `swca1` -/

/-- The errors of the package: the three `fmt.Errorf` rejections of the rules
(with the runes they print) and the sentinel `ErrUnreachableComplexity`. -/
inductive Error where
  | alreadyInHash (r : strings.Rune)
  | repeatedType (prev r : strings.Rune)
  | repeatedCharacter (prev r : strings.Rune)
  | ErrUnreachableComplexity
deriving DecidableEq, Repr

/-- The map `vocabulary` of well known tokens. -/
def vocabulary (t : Char) : Option (List Char) :=
  if t = '1' then some "0123456789".toList
  else if t = 'n' then some "0123456789".toList
  else if t = 'A' then some "ABCDEFGHIJKLMNOPQRSTUVWXYZ".toList
  else if t = 'u' then some "ABCDEFGHIJKLMNOPQRSTUVWXYZ".toList
  else if t = 'a' then some "abcdefghijklmnopqrstuvwxyz".toList
  else if t = 'l' then some "abcdefghijklmnopqrstuvwxyz".toList
  else if t = '@' then some "?!@#$%^&*-+".toList
  else if t = 's' then some "?!@#$%^&*-+".toList
  else none

/-- The type `complexity`: `func(strings.String, strings.Rune) error`. -/
abbrev complexity := strings.String → strings.Rune → Option Error

/-- Options represents hash generation configuration. -/
structure Options where
  size : Int
  alphabet : List Char
  complex : complexity

/-- The type `Option` of the package (`func(*Options)`): an update of the Options. -/
abbrev OptionFn := Options → Options

/-- The function `wrap`: `w[0](wrap(v, w[1:]...))`.  Every call site passes a
freshly built argument slice, whose capacity is its length. -/
def wrap (v : complexity) : List (complexity → complexity) → complexity
  | [] => v
  | w0 :: w => w0 (wrap v w)

/-- NULS represents default alphabet tokens. -/
def NULS : List Char := "nuls".toList

/-- ABC represents default alphabet. -/
def ABC : List Char :=
  "0123456789ABCDEFGHIJKLMNOPQRSTUVWXYZabcdefghijklmnopqrstuvwxyz?!@#$%^&*-+".toList

/-- Enough is an optimal hash size for default alphabet. -/
def Enough : Int := 20

/-- Max is reserved identifier for maximum hash size within required complexity. -/
def Max : Int := 0

/-- Alphabet customizes the hash alphabet in "wkt|alphabet" format. -/
def Alphabet (tokens : List Char) : OptionFn := fun o =>
  if tokens.length = 0 then o
  else
    let o := { o with alphabet := [] }
    let splits := stdstrings.SplitN2 tokens '|'
    let o := (splits.getD 0 []).foldl
      (fun o t =>
        match vocabulary t with
        | none => o
        | some s => { o with alphabet := o.alphabet ++ s }) o
    if splits.length = 2 then { o with alphabet := o.alphabet ++ splits.getD 1 [] } else o

/-- Size specifies the hash size; a negative size is ignored. -/
def Size (size : Int) : OptionFn := fun o =>
  if size ≥ 0 then { o with size := size } else o

/-- The rule `unique`: rejects a rune that is already in the hash, regardless of case. -/
def unique (U : Unicode) (v : complexity) : complexity := fun h r =>
  if h.any (fun c => c.Same U r) then some (Error.alreadyInHash r)
  else v h r

/-- The rule `noTypeRepetition`: rejects a rune of the type of the last one. -/
def noTypeRepetition (v : complexity) : complexity := fun h r =>
  let (prev, has) := h.Last
  if !has then none
  else if prev.OfType r then some (Error.repeatedType prev r)
  else v h r

/-- The rule `noCharacterRepetition`: rejects a letter after a letter. -/
def noCharacterRepetition (v : complexity) : complexity := fun h r =>
  let (prev, has) := h.Last
  if !has then none
  else if prev.Is strings.Letter && r.Is strings.Letter then some (Error.repeatedCharacter prev r)
  else v h r

/-- Unique ensures uniqueness of each character in hash. -/
def Unique (U : Unicode) : OptionFn := fun o => { o with complex := wrap o.complex [unique U] }

/-- NoTypeRepetition guarantees any pair of adjacent characters has a different type. -/
def NoTypeRepetition : OptionFn := fun o => { o with complex := wrap o.complex [noTypeRepetition] }

/-- NoCharacterRepetition guarantees that in any pair of adjacent characters there is
no more than one letter. -/
def NoCharacterRepetition : OptionFn :=
  fun o => { o with complex := wrap o.complex [noCharacterRepetition] }

/-- The option values a caller can build: one constructor per exported function
returning (or being) an `Option`. -/
inductive Arg where
  | Alphabet (tokens : List Char)
  | Size (size : Int)
  | Unique
  | NoTypeRepetition
  | NoCharacterRepetition
deriving DecidableEq, Repr

/-- The `Option` value an `Arg` stands for. -/
def Arg.fn (U : Unicode) : Arg → OptionFn
  | .Alphabet tokens => swca1.Alphabet tokens
  | .Size size => swca1.Size size
  | .Unique => swca1.Unique U
  | .NoTypeRepetition => swca1.NoTypeRepetition
  | .NoCharacterRepetition => swca1.NoCharacterRepetition

/-- The struct `digest`: options, the embedded combiner, the state of `rnd` and the
hash generated by the last Write. -/
structure digest where
  opts : Options
  Hash64 : hash64
  rnd : Nat
  hash : strings.String

/-- New returns the generator: defaults, then every option applied in order.
The source `rand.New(rand.NewSource(1))` is in the state that `Seed(1)` leaves. -/
def New (E : Env) (opts : List OptionFn) : digest :=
  { opts := opts.foldl (fun o opt => opt o)
      { alphabet := ABC, complex := fun _ _ => none, size := Enough }
    rnd := E.randSeed 1
    Hash64 := hash64.New
    hash := [] }

/-- The function `pick`: the rune at `i` and the alphabet without it. -/
def pick (abc : strings.String) (i : Int) : strings.String × strings.Rune :=
  let pick := (abc.Pick i).1
  let abc := (abc.Remove i).1
  (abc, pick)

/-- The function `sin`: `int(y*float64(max)/2 + float64(max)/2)` for `y = math.Sin(float64(x))`.
The sum is taken exactly, as `(num*max + den*max) / (2*den)`, and the conversion to
`int` truncates toward zero.  Write is modelled with this value; `sin64` below is the
same expression with every operation rounded to float64, and both lie in `[0, max]` for
`0 ≤ max < 2^53` (`sin_range`, `sin64_range`). -/
def sin (E : Env) (x max : Int) : Int :=
  let y := E.mathSin x
  Int.tdiv (y.num * max + y.den * max) (2 * y.den)

/-- The function `btoi`: bytes as ints. -/
def btoi (bytes : List Nat) : List Int := bytes.map Int.ofNat

/-- Conversion to `int64`, wrapping around. -/
def int64 (x : Int) : Int := (x + 2 ^ 63) % 2 ^ 64 - 2 ^ 63

/-- How the attempt loop of Write ends: with a rune the rules accept, or on an
empty working alphabet.  Both carry the entropy accumulated so far. -/
inductive Attempt where
  | accepted (entropy : Int) (next : strings.Rune)
  | exhausted (entropy : Int)
deriving DecidableEq, Repr

/-- The attempt loop of Write, `for attempt := 0; ; attempt++`, run for at most
`fuel` iterations (`none` when none of them left the loop). -/
def digest.Write.attempts (E : Env) (complex : complexity) (hash : strings.String) :
    Nat → strings.String → Int → Int → Int → Option Attempt
  | 0, _, _, _, _ => none
  | fuel + 1, src, p, attempt, entropy =>
    let p := sin E (p + attempt) (src.Len - 1)
    let entropy := entropy + p
    let (src, next) := pick src p
    if src.Empty then some (.exhausted entropy)
    else
      match complex hash next with
      | none => some (.accepted entropy next)
      | some _ => digest.Write.attempts E complex hash fuel src p (attempt + 1) entropy

/-- The loop of Write over the picks.  The state is the master alphabet `abc` (which
Shuffle reorders in place), the state of `rnd`, the hash so far and the entropy; the
result is the final state of `rnd`, the final hash, and whether the loop was left
through `src.Empty()`. -/
def digest.Write.loop (E : Env) (complex : complexity) (sum : Nat) (fuel : Nat) :
    List Int → strings.String → Nat → strings.String → Int → Option (Nat × strings.String × Bool)
  | [], _, rnd, hash, _ => some (rnd, hash, false)
  | p :: picks, abc, _, hash, entropy =>
    let rnd := E.randSeed (int64 (int64 sum + int64 p + int64 entropy))
    let (abc, src, rnd) := abc.Shuffle E rnd
    match digest.Write.attempts E complex hash fuel src p 0 entropy with
    | none => none
    | some (.exhausted _) => some (rnd, hash, true)
    | some (.accepted entropy next) =>
      digest.Write.loop E complex sum fuel picks abc rnd (hash ++ [next]) entropy

/-- Write: feeds the data to the combiner and regenerates the hash.  The result is
the generator after the call with the pair `(n, err)` returned, or `none` when an
attempt loop did not finish within `fuel` iterations.  (`picks[:size]` is taken for
`0 < size < 64`; the options never set a negative size.) -/
def digest.Write (E : Env) (fuel : Nat) (d : digest) (data : List Nat) :
    Option (digest × Int × Option Error) :=
  let (h64, _n) := d.Hash64.Write data
  let sum := h64.Sum64 E
  let picks := btoi (h64.Sum E [])
  let picks :=
    if d.opts.size = Max then picks
    else if d.opts.size < h64.Size then picks.take d.opts.size.toNat
    else picks
  let abc := strings.New E.unicode d.opts.alphabet
  match digest.Write.loop E d.opts.complex sum fuel picks abc d.rnd [] 0 with
  | none => none
  | some (rnd, hash, stopped) =>
    let d := { d with Hash64 := h64, rnd := rnd, hash := hash }
    if stopped then
      if d.opts.size = Max then some (d, (data.length : Int), none)
      else some (d, 0, some Error.ErrUnreachableComplexity)
    else some (d, (data.length : Int), none)

/-- Sum appends the bytes of the hash to `b`. -/
def digest.Sum (d : digest) (b : List Nat) : List Nat := b ++ d.hash.Bytes

/-- Reset clears the hash, reseeds `rnd` with 1 and resets the combiner. -/
def digest.Reset (E : Env) (d : digest) : digest :=
  { d with hash := [], rnd := E.randSeed 1, Hash64 := d.Hash64.Reset }

/-- Size returns the configured size, or that of the combiner for `Max`. -/
def digest.Size (d : digest) : Int :=
  if d.opts.size > 0 then d.opts.size else d.Hash64.Size

/-- BlockSize is 1. -/
def digest.BlockSize (_d : digest) : Int := 1

/-! ## The alphabet as the documentation words it -/

/-- The expansion of one token code: digits for `n`/`1`, uppercase letters for `u`/`A`,
lowercase letters for `l`/`a`, the symbols for `s`/`@`, nothing for any other code. -/
def expansion (c : Char) : List Char :=
  if c = 'n' ∨ c = '1' then "0123456789".toList
  else if c = 'u' ∨ c = 'A' then "ABCDEFGHIJKLMNOPQRSTUVWXYZ".toList
  else if c = 'l' ∨ c = 'a' then "abcdefghijklmnopqrstuvwxyz".toList
  else if c = 's' ∨ c = '@' then "?!@#$%^&*-+".toList
  else []

/-- The alphabet a token string denotes, in the words of the documentation: the
expansions of the codes before the first `|`, in order, followed by the text after
the first `|`. -/
def alphabetOfTokens (tokens : List Char) : List Char :=
  (tokens.takeWhile (fun c => c != '|')).flatMap expansion
    ++ (tokens.dropWhile (fun c => c != '|')).drop 1

/-! ## A concrete environment

It serves to run the definitions on concrete inputs.  The classifier is the ASCII
part of package `unicode`; the digest, the checksum, the random source and the sine
are small stand-ins with the same interfaces. -/

/-- The code points `lo..hi`. -/
def between (lo hi : Nat) (c : Char) : Bool := decide (lo ≤ c.toNat) && decide (c.toNat ≤ hi)

/-- Package `unicode` on ASCII; every test is false, and `ToUpper` the identity, above it. -/
def asciiUnicode : Unicode where
  IsLetter c := between 65 90 c || between 97 122 c
  IsNumber c := between 48 57 c
  IsSymbol c := [36, 43, 60, 61, 62, 94, 96, 124, 126].contains c.toNat
  IsGraphic c := between 32 126 c
  IsDigit c := between 48 57 c
  IsMark _ := false
  IsControl c := between 0 31 c || c.toNat == 127
  IsLower c := between 97 122 c
  IsUpper c := between 65 90 c
  IsPrint c := between 32 126 c
  IsPunct c := [33, 34, 35, 37, 38, 39, 40, 41, 42, 44, 45, 46, 47, 58, 59, 63, 64,
    91, 92, 93, 95, 123, 125].contains c.toNat
  IsSpace c := between 9 13 c || c.toNat == 32
  IsTitle _ := false
  ToUpper c := if between 97 122 c then Char.ofNat (c.toNat - 32) else c

/-- A small environment: a 64-byte digest and a checksum computed from the sum of the
bytes written, a Fisher-Yates shuffle whose draws come from the seed, and a sine
with values in hundredths. -/
def demoEnv : Env where
  unicode := asciiUnicode
  sha512Sum b := (List.range 64).map (fun i => (b.sum + 31 * i + 7) % 256)
  fnvSum64 b := (b.sum * 1099511628211 + 1469598103) % 2 ^ 64
  randSeed s := s.natAbs
  randShuffle st n := ((List.range n).reverse.map (fun i => (i, (st + 7 * i) % (i + 1))), st + n)
  mathSin x := ⟨(x * 37) % 201 - 100, 100⟩
  sha512Sum_length b := by simp
  randShuffle_lt st n p hp := by
    simp only [List.mem_map, List.mem_reverse, List.mem_range] at hp
    obtain ⟨i, hi, rfl⟩ := hp
    exact ⟨hi, lt_of_lt_of_le (Nat.mod_lt _ (Nat.succ_pos i)) hi⟩
  mathSin_den _ := by
    show (0 : Int) < 100
    decide
  mathSin_range x :=
    ⟨by show -(100 : Int) ≤ x * 37 % 201 - 100; omega,
     by show x * 37 % 201 - 100 ≤ (100 : Int); omega⟩

open strings

/-! ## Predicates and concrete data used by the theorems -/

/-- A complexity enforces a check when it accepts only what passes the check. -/
def Enforces (c : complexity) (chk : strings.String → strings.Rune → Bool) : Prop :=
  ∀ h r, c h r = none → chk h r = true

/-- The check proper to `unique`: no rune of the hash is the same as the incoming one. -/
def uniqueCheck (U : Unicode) (h : strings.String) (r : strings.Rune) : Bool :=
  !h.any (fun c => c.Same U r)

/-- The check proper to `noTypeRepetition`: the hash is empty or its last rune has another type. -/
def typeCheck (h : strings.String) (r : strings.Rune) : Bool :=
  match h.getLast? with
  | none => true
  | some prev => !prev.OfType r

/-- The check proper to `noCharacterRepetition`: the hash is empty or its last rune and the
incoming one are not both letters. -/
def characterCheck (h : strings.String) (r : strings.Rune) : Bool :=
  match h.getLast? with
  | none => true
  | some prev => !(prev.Is strings.Letter && r.Is strings.Letter)

/-- The picks of a Write: the digest of everything written so far, as ints, cut to
the configured size when that is neither `Max` nor 64 or more (the `switch` of Write). -/
def digest.Write.picks (E : Env) (d : digest) (data : List Nat) : List Int :=
  let picks := btoi ((d.Hash64.Write data).1.Sum E [])
  if d.opts.size = Max then picks
  else if d.opts.size < (d.Hash64.Write data).1.Size then picks.take d.opts.size.toNat
  else picks

/-- A run of Writes, one for each input in turn, whatever each of them returns
(`none` when one of them does not finish within `fuel`). -/
def digest.Writes (E : Env) (fuel : Nat) : digest → List (List Nat) → Option digest
  | d, [] => some d
  | d, x :: xs =>
    match d.Write E fuel x with
    | none => none
    | some r => digest.Writes E fuel r.1 xs

/-- The number of characters of the alphabet that are pairwise distinct regardless of case. -/
def distinctIgnoringCase (U : Unicode) (alphabet : List Char) : Nat :=
  ((alphabet.map U.ToUpper).dedup).length

/-- Arguments for the concrete runs: a five-rune alphabet, size 3 and the three rules. -/
def demoArgs : List Arg :=
  [.Alphabet "|a1b?C".toList, .Size 3, .Unique, .NoTypeRepetition, .NoCharacterRepetition]

/-- The generator `New` builds from `demoArgs` in the concrete environment. -/
def demoDigest : digest := New demoEnv (demoArgs.map (Arg.fn demoEnv.unicode))

/-- A hash of `m` runes can be generated from the alphabet `abc` under the complexity
`c`: some sequence of `m` runes of `abc` has each of its runes accepted by `c` against
the runes before it. -/
def Generable (c : complexity) (abc : strings.String) (m : Nat) : Prop :=
  ∃ l : strings.String, l.length = m ∧ (∀ x ∈ l, x ∈ abc) ∧
    ∀ (pre : strings.String) (r : strings.Rune) (post : strings.String),
      l = pre ++ r :: post → c pre r = none

/-- What a run of Write shows from outside: the runes of the hash it leaves and the pair
`(n, err)` it returns. -/
def digest.observe (r : Option (digest × Int × Option Error)) :
    Option (List Char × Int × Option Error) :=
  r.map (fun r => (r.1.hash.String, r.2))

/-- Arguments with size `Max`, a three-rune alphabet and `Unique`. -/
def demoMaxArgs : List Arg := [.Alphabet "|a1A".toList, .Size Max, .Unique]

/-- Arguments with an alphabet too small for the size under `Unique`: `a` and `A` are the
same regardless of case. -/
def demoSmallArgs : List Arg := [.Alphabet "|aA".toList, .Size 2, .Unique]

/-- The check proper to an option: that of its rule for the three rules, none for
`Alphabet` and `Size`, which leave the complexity alone. -/
def Arg.check (U : Unicode) : Arg → strings.String → strings.Rune → Bool
  | .Unique => uniqueCheck U
  | .NoTypeRepetition => typeCheck
  | .NoCharacterRepetition => characterCheck
  | .Alphabet _ => fun _ _ => true
  | .Size _ => fun _ _ => true

/-- Arguments under which every Write fails after one rune: the alphabet `aa`, size 2 and
`Unique`. -/
def demoTwinArgs : List Arg := [.Alphabet "|aa".toList, .Size 2, .Unique]

/-- The entropy an attempt loop ends with. -/
def Attempt.entropy : Attempt → Int
  | .accepted entropy _ => entropy
  | .exhausted entropy => entropy

/-- The indices the attempt loop of Write tries, in order: the successive values of
`p = sin(p+attempt, src.Len()-1)`, up to and including the one after which the loop is
left (or up to `fuel` of them).  The function follows `digest.Write.attempts` step
for step. -/
def digest.Write.tried (E : Env) (complex : complexity) (hash : strings.String) :
    Nat → strings.String → Int → Int → List Int
  | 0, _, _, _ => []
  | fuel + 1, src, p, attempt =>
    let p := sin E (p + attempt) (src.Len - 1)
    let (src, next) := pick src p
    if src.Empty then [p]
    else
      match complex hash next with
      | none => [p]
      | some _ => p :: digest.Write.tried E complex hash fuel src p (attempt + 1)

/-- What Write does for one digest byte: the byte `p`, the seed given to `rnd`, the master
alphabet `abc` as it is before `Shuffle`, the working alphabet `src` that `Shuffle`
returns, and the indices the attempt loop tries. -/
structure Step where
  p : Int
  seed : Int
  master : strings.String
  src : strings.String
  tried : List Int
deriving DecidableEq, Repr

/-- The steps of the loop of Write over the picks, one for each digest byte it reaches.
The function follows `digest.Write.loop` step for step. -/
def digest.Write.steps (E : Env) (complex : complexity) (sum : Nat) (fuel : Nat) :
    List Int → strings.String → strings.String → Int → List Step
  | [], _, _, _ => []
  | p :: picks, abc, hash, entropy =>
    let seed := int64 (int64 sum + int64 p + int64 entropy)
    let (abc1, src, _) := abc.Shuffle E (E.randSeed seed)
    { p := p, seed := seed, master := abc, src := src,
      tried := digest.Write.tried E complex hash fuel src p 0 } ::
      match digest.Write.attempts E complex hash fuel src p 0 entropy with
      | some (.accepted entropy next) =>
        digest.Write.steps E complex sum fuel picks abc1 (hash ++ [next]) entropy
      | _ => []

/-- The steps of a Write. -/
def digest.steps (E : Env) (fuel : Nat) (d : digest) (data : List Nat) : List Step :=
  digest.Write.steps E d.opts.complex ((d.Hash64.Write data).1.Sum64 E) fuel
    (digest.Write.picks E d data) (strings.New E.unicode d.opts.alphabet) [] 0

/-! ## The float64 arithmetic of `sin`

A finite float64 is `m * 2^e` with `|m| < 2^53` and `-1074 ≤ e`.  Here every float64 is
given by the integer number of units of `2^-1074` it holds, so that the values are
`± m * 2^j` with `m < 2^53` and `j` a natural number, and each operation of the source is
the exact operation followed by rounding to the nearest value, ties to even.  (No value
computed from a Go `int` comes near the overflow threshold `2^1024`.) -/

/-- The number of units of `2^-1074` in `1.0`. -/
def float64.one : Nat := 2 ^ 1074

/-- The integer nearest to `n / d`, the even one of the two when `n / d` is half way. -/
def float64.roundHalfEven (n d : Nat) : Nat :=
  if 2 * (n % d) < d then n / d
  else if d < 2 * (n % d) then n / d + 1
  else if (n / d) % 2 = 0 then n / d
  else n / d + 1

/-- The position of the highest bit of `n`, found by halving at most `fuel` times. -/
def float64.highBit : Nat → Nat → Nat
  | 0, _ => 0
  | fuel + 1, n => if n < 2 then 0 else float64.highBit fuel (n / 2) + 1

/-- The exponent of the spacing of the float64 values around `n / d` units: the `j` that
leaves 53 bits to the integer part of `n / d` (`j = 0` below `2^53` units, the subnormal
and the lowest normal range). -/
def float64.spacing (n d : Nat) : Nat := float64.highBit (n / d) (n / d) - 52

/-- The float64 nearest to `n / d` units, for `n / d ≥ 0`: the nearest multiple of the
spacing around `n / d`, ties to even. -/
def float64.roundNat (n d : Nat) : Nat :=
  float64.roundHalfEven n (d * 2 ^ float64.spacing n d) * 2 ^ float64.spacing n d

/-- The float64 nearest to `n / d` units, of either sign. -/
def float64.round (n : Int) (d : Nat) : Int :=
  if 0 ≤ n then (float64.roundNat n.toNat d : Int) else -(float64.roundNat (-n).toNat d : Int)

/-- The number of units `v` is a float64: `± m * 2^j` with `m < 2^53`. -/
def float64.IsValue (v : Int) : Prop := ∃ m j : Nat, m < 2 ^ 53 ∧ v.natAbs = m * 2 ^ j

/-- The function `sin` as the source computes it, in float64:
`int(y*float64(max)/2 + float64(max)/2)` for `y = math.Sin(float64(x))`, each of the
conversion `float64(max)`, the product, the two divisions and the sum being rounded to
the nearest float64, and the conversion to `int` truncating toward zero. -/
def sin64 (E : Env) (x max : Int) : Int :=
  let y := E.mathSin x
  let m := float64.round (max * float64.one) 1
  let a := float64.round (y.num * m) y.den.toNat
  let b := float64.round a 2
  let c := float64.round m 2
  let s := float64.round (b + c) 1
  Int.tdiv s float64.one

/-- An environment in which `math.Sin(float64(288632526))` is `1.0`, as it is in float64
(288632526 lies within `1e-9` of an odd multiple of `π/2`); elsewhere it is `demoEnv`. -/
def peakEnv : Env where
  unicode := demoEnv.unicode
  sha512Sum := demoEnv.sha512Sum
  fnvSum64 := demoEnv.fnvSum64
  randSeed := demoEnv.randSeed
  randShuffle := demoEnv.randShuffle
  mathSin x := if x = 288632526 then ⟨1, 1⟩ else demoEnv.mathSin x
  sha512Sum_length := demoEnv.sha512Sum_length
  randShuffle_lt := demoEnv.randShuffle_lt
  mathSin_den x := by
    by_cases h : x = 288632526
    · simp only [if_pos h]
      decide
    · simp only [if_neg h]
      exact demoEnv.mathSin_den x
  mathSin_range x := by
    by_cases h : x = 288632526
    · simp only [if_pos h]
      decide
    · simp only [if_neg h]
      exact demoEnv.mathSin_range x

/-! # Theorems -/

/-! ## Rune sequences -/

theorem strings.Last_nil : String.Last ([] : strings.String) = (Rune.zero, false) := by
  simp [String.Last, String.Pick]

theorem strings.Last_concat (h : strings.String) (x : Rune) :
    String.Last (h ++ [x]) = (x, true) := by
  have h1 : ¬ ((((h ++ [x]).length : Int) - 1 < 0) ∨ (((h ++ [x]).length : Int) - 1 ≥ ((h ++ [x]).length : Int))) := by
    simp only [List.length_append, List.length_singleton]
    push_cast
    omega
  have h2 : ((((h ++ [x]).length : Int) - 1).toNat) = h.length := by
    simp only [List.length_append, List.length_singleton]
    push_cast
    omega
  simp only [String.Last, String.Pick, if_neg h1, h2]
  simp [List.getD_eq_getElem?_getD]

theorem strings.Last_of_ne_nil (h : strings.String) (hne : h ≠ []) :
    ∃ x, String.Last h = (x, true) ∧ h.getLast? = some x := by
  obtain ⟨l, x, rfl⟩ : ∃ l x, h = l ++ [x] := ⟨h.dropLast, h.getLast hne, (List.dropLast_append_getLast hne).symm⟩
  exact ⟨x, strings.Last_concat l x, by simp⟩


/-! ## The rules -/

theorem snoc_cases (h : strings.String) : h = [] ∨ ∃ l x, h = l ++ [x] := by
  by_cases hne : h = []
  · exact Or.inl hne
  · exact Or.inr ⟨h.dropLast, h.getLast hne, (List.dropLast_append_getLast hne).symm⟩

theorem noTypeRepetition_nil (v : complexity) (r : Rune) : noTypeRepetition v [] r = none := by
  simp [noTypeRepetition, strings.Last_nil]

theorem noTypeRepetition_concat (v : complexity) (l : strings.String) (x r : Rune) :
    noTypeRepetition v (l ++ [x]) r
      = if x.OfType r then some (Error.repeatedType x r) else v (l ++ [x]) r := by
  simp [noTypeRepetition, strings.Last_concat]

theorem noCharacterRepetition_nil (v : complexity) (r : Rune) :
    noCharacterRepetition v [] r = none := by
  simp [noCharacterRepetition, strings.Last_nil]

theorem noCharacterRepetition_concat (v : complexity) (l : strings.String) (x r : Rune) :
    noCharacterRepetition v (l ++ [x]) r
      = if x.Is Letter && r.Is Letter then some (Error.repeatedCharacter x r)
        else v (l ++ [x]) r := by
  simp [noCharacterRepetition, strings.Last_concat]

theorem unique_enforces (U : Unicode) (v : complexity) : Enforces (unique U v) (uniqueCheck U) := by
  intro h r hc
  unfold unique at hc
  unfold uniqueCheck
  by_cases hany : h.any (fun c => c.Same U r) = true
  · rw [if_pos hany] at hc
    cases hc
  · simpa using hany

theorem unique_keeps (U : Unicode) (v : complexity) (chk : strings.String → Rune → Bool)
    (hv : Enforces v chk) : Enforces (unique U v) chk := by
  intro h r hc
  unfold unique at hc
  by_cases hany : h.any (fun c => c.Same U r) = true
  · rw [if_pos hany] at hc
    cases hc
  · rw [if_neg hany] at hc
    exact hv h r hc

theorem noTypeRepetition_enforces (v : complexity) : Enforces (noTypeRepetition v) typeCheck := by
  intro h r hc
  unfold typeCheck
  rcases snoc_cases h with rfl | ⟨l, x, rfl⟩
  · rfl
  · rw [noTypeRepetition_concat] at hc
    rw [List.getLast?_concat]
    by_cases ht : x.OfType r = true
    · rw [if_pos ht] at hc
      cases hc
    · simpa using ht

theorem noTypeRepetition_keeps (v : complexity) (chk : strings.String → Rune → Bool)
    (h0 : ∀ r, chk [] r = true) (hv : Enforces v chk) : Enforces (noTypeRepetition v) chk := by
  intro h r hc
  rcases snoc_cases h with rfl | ⟨l, x, rfl⟩
  · exact h0 r
  · rw [noTypeRepetition_concat] at hc
    by_cases ht : x.OfType r = true
    · rw [if_pos ht] at hc
      cases hc
    · rw [if_neg ht] at hc
      exact hv _ r hc

theorem noCharacterRepetition_enforces (v : complexity) :
    Enforces (noCharacterRepetition v) characterCheck := by
  intro h r hc
  unfold characterCheck
  rcases snoc_cases h with rfl | ⟨l, x, rfl⟩
  · rfl
  · rw [noCharacterRepetition_concat] at hc
    rw [List.getLast?_concat]
    by_cases ht : (x.Is Letter && r.Is Letter) = true
    · rw [if_pos ht] at hc
      cases hc
    · show (!(x.Is Letter && r.Is Letter)) = true
      rw [Bool.not_eq_true] at ht
      rw [ht]
      rfl

theorem noCharacterRepetition_keeps (v : complexity) (chk : strings.String → Rune → Bool)
    (h0 : ∀ r, chk [] r = true) (hv : Enforces v chk) :
    Enforces (noCharacterRepetition v) chk := by
  intro h r hc
  rcases snoc_cases h with rfl | ⟨l, x, rfl⟩
  · exact h0 r
  · rw [noCharacterRepetition_concat] at hc
    by_cases ht : (x.Is Letter && r.Is Letter) = true
    · rw [if_pos ht] at hc
      cases hc
    · rw [if_neg ht] at hc
      exact hv _ r hc

/-- Every option keeps what the complexity already enforces, for a check that
holds on the empty hash. -/
theorem fn_keeps (U : Unicode) (a : Arg) (o : Options) (chk : strings.String → Rune → Bool)
    (h0 : ∀ r, chk [] r = true) (ho : Enforces o.complex chk) :
    Enforces (a.fn U o).complex chk := by
  cases a with
  | Alphabet tokens =>
    have : (Alphabet tokens o).complex = o.complex := by
      unfold Alphabet
      split
      · rfl
      · have hf : ∀ (l : List Char) (o1 : Options),
            (l.foldl (fun o t => match vocabulary t with
              | none => o
              | some s => { o with alphabet := o.alphabet ++ s }) o1).complex = o1.complex := by
          intro l
          induction l with
          | nil => intro o1; rfl
          | cons t l ih =>
            intro o1
            rw [List.foldl_cons, ih]
            cases vocabulary t <;> rfl
        simp only []
        split <;> simp [hf]
    show Enforces (Alphabet tokens o).complex chk
    rw [this]
    exact ho
  | Size size =>
    show Enforces (Size size o).complex chk
    unfold Size
    split <;> exact ho
  | Unique => exact unique_keeps U _ chk ho
  | NoTypeRepetition => exact noTypeRepetition_keeps _ chk h0 ho
  | NoCharacterRepetition => exact noCharacterRepetition_keeps _ chk h0 ho

theorem foldl_keeps (U : Unicode) (chk : strings.String → Rune → Bool)
    (h0 : ∀ r, chk [] r = true) (args : List Arg) (o : Options)
    (ho : Enforces o.complex chk) :
    Enforces ((args.map (Arg.fn U)).foldl (fun o opt => opt o) o).complex chk := by
  induction args generalizing o with
  | nil => exact ho
  | cons a args ih =>
    rw [List.map_cons, List.foldl_cons]
    exact ih _ (fn_keeps U a o chk h0 ho)

/-- A check holding on the empty hash is enforced by the options as soon as one of
them enforces it. -/
theorem foldl_enforces (U : Unicode) (chk : strings.String → Rune → Bool)
    (h0 : ∀ r, chk [] r = true) (a : Arg) (ha : ∀ o, Enforces (a.fn U o).complex chk)
    (args : List Arg) (hmem : a ∈ args) (o : Options) :
    Enforces ((args.map (Arg.fn U)).foldl (fun o opt => opt o) o).complex chk := by
  induction args generalizing o with
  | nil => cases hmem
  | cons b args ih =>
    rw [List.map_cons, List.foldl_cons]
    rcases List.mem_cons.1 hmem with rfl | hin
    · exact foldl_keeps U chk h0 args _ (ha o)
    · exact ih hin _


/-! ## The attempt loop -/

theorem attempts_succ (E : Env) (c : complexity) (hash : strings.String) (fuel : Nat)
    (src : strings.String) (p a e : Int) :
    digest.Write.attempts E c hash (fuel + 1) src p a e =
      if (pick src (sin E (p + a) (src.Len - 1))).1.Empty then
        some (.exhausted (e + sin E (p + a) (src.Len - 1)))
      else
        match c hash (pick src (sin E (p + a) (src.Len - 1))).2 with
        | none => some (.accepted (e + sin E (p + a) (src.Len - 1))
            (pick src (sin E (p + a) (src.Len - 1))).2)
        | some _ => digest.Write.attempts E c hash fuel
            (pick src (sin E (p + a) (src.Len - 1))).1 (sin E (p + a) (src.Len - 1)) (a + 1)
            (e + sin E (p + a) (src.Len - 1)) := by
  rfl

theorem attempts_accepted (E : Env) (c : complexity) (hash : strings.String) (fuel : Nat) :
    ∀ (src : strings.String) (p a e e1 : Int) (next : Rune),
      digest.Write.attempts E c hash fuel src p a e = some (.accepted e1 next) →
        c hash next = none := by
  induction fuel with
  | zero =>
    intro src p a e e1 next h
    simp [digest.Write.attempts] at h
  | succ n ih =>
    intro src p a e e1 next h
    rw [attempts_succ] at h
    split at h
    · cases h
    · split at h
      · rename_i heq
        injection h with h
        injection h with _ h2
        subst h2
        exact heq
      · exact ih _ _ _ _ _ _ h


theorem sin_range (E : Env) (x max : Int) (h : 0 ≤ max) : 0 ≤ sin E x max ∧ sin E x max ≤ max := by
  unfold sin
  have hd := E.mathSin_den x
  have hr := E.mathSin_range x
  have hA : 0 ≤ (E.mathSin x).num * max + (E.mathSin x).den * max := by nlinarith
  have h2 : (0 : Int) < 2 * (E.mathSin x).den := by omega
  simp only []
  rw [Int.tdiv_eq_ediv hA (le_of_lt h2)]
  constructor
  · exact Int.ediv_nonneg hA (le_of_lt h2)
  · apply Int.ediv_le_of_le_mul h2
    nlinarith

theorem pick_length_le (src : strings.String) (i : Int) : (pick src i).1.length ≤ src.length := by
  unfold pick String.Remove
  split
  · exact le_refl _
  · simp only [List.length_append, List.length_take, List.length_drop]
    omega

theorem pick_nil (i : Int) : (pick [] i).1 = [] := by
  have h := pick_length_le [] i
  exact List.length_eq_zero.1 (Nat.le_zero.1 h)

theorem pick_length (src : strings.String) (i : Int) (h0 : 0 ≤ i) (h1 : i < src.length) :
    (pick src i).1.length + 1 = src.length := by
  unfold pick String.Remove
  rw [if_neg (by omega)]
  simp only [List.length_append, List.length_take, List.length_drop]
  omega

theorem pick_mem (src : strings.String) (i : Int) (h0 : 0 ≤ i) (h1 : i < src.length) :
    (pick src i).2 ∈ src := by
  unfold pick String.Pick
  rw [if_neg (by omega)]
  have hlt : i.toNat < src.length := by omega
  simp only [List.getD_eq_getElem?_getD, List.getElem?_eq_getElem hlt, Option.getD_some]
  exact List.getElem_mem hlt

theorem pick_sublist (src : strings.String) (i : Int) : ∀ x ∈ (pick src i).1, x ∈ src := by
  intro x hx
  unfold pick String.Remove at hx
  split at hx
  · exact hx
  · rcases List.mem_append.1 hx with h | h
    · exact List.mem_of_mem_take h
    · exact List.mem_of_mem_drop h

/-- On a non-empty working alphabet the index computed by `sin` is in range. -/
theorem sin_index (E : Env) (x : Int) (src : strings.String) (hne : src ≠ []) :
    0 ≤ sin E x (src.Len - 1) ∧ sin E x (src.Len - 1) < src.length := by
  have hpos : 0 < src.length := List.length_pos.2 hne
  have := sin_range E x (src.Len - 1) (by unfold String.Len; omega)
  unfold String.Len at this ⊢
  omega

theorem attempts_terminates (E : Env) (c : complexity) (hash : strings.String) (fuel : Nat) :
    ∀ (src : strings.String) (p a e : Int), 0 < fuel → src.length ≤ fuel →
      ∃ r, digest.Write.attempts E c hash fuel src p a e = some r := by
  induction fuel with
  | zero => intro src p a e h; omega
  | succ n ih =>
    intro src p a e _ hlen
    rw [attempts_succ]
    split
    · exact ⟨_, rfl⟩
    · rename_i hne
      split
      · exact ⟨_, rfl⟩
      · have hsrc : src ≠ [] := by
          rintro rfl
          apply hne
          rw [pick_nil]
          rfl
        have hi := sin_index E (p + a) src hsrc
        have hl := pick_length src _ hi.1 hi.2
        have hpos : 0 < (pick src (sin E (p + a) (src.Len - 1))).1.length := by
          unfold String.Empty at hne
          rcases Nat.eq_zero_or_pos (pick src (sin E (p + a) (src.Len - 1))).1.length with h0 | h0
          · exfalso
            apply hne
            simp [h0]
          · exact h0
        exact ih _ _ _ _ (by omega) (by omega)

theorem attempts_mem (E : Env) (c : complexity) (hash : strings.String) (fuel : Nat) :
    ∀ (src : strings.String) (p a e e1 : Int) (next : Rune),
      digest.Write.attempts E c hash fuel src p a e = some (.accepted e1 next) → next ∈ src := by
  induction fuel with
  | zero =>
    intro src p a e e1 next h
    simp [digest.Write.attempts] at h
  | succ n ih =>
    intro src p a e e1 next h
    rw [attempts_succ] at h
    split at h
    · cases h
    · rename_i hne
      have hsrc : src ≠ [] := by
        rintro rfl
        apply hne
        rw [pick_nil]
        rfl
      have hi := sin_index E (p + a) src hsrc
      split at h
      · injection h with h
        injection h with _ h2
        subst h2
        exact pick_mem src _ hi.1 hi.2
      · exact pick_sublist src _ _ (ih _ _ _ _ _ _ h)


/-! ## Shuffle -/

theorem swap_length (s : strings.String) (i j : Nat) : (s.swap i j).length = s.length := by
  unfold String.swap
  split <;> simp

theorem swap_subset (s : strings.String) (i j : Nat) : ∀ x ∈ s.swap i j, x ∈ s := by
  intro x hx
  unfold String.swap at hx
  split at hx
  · rename_i a b ha hb
    rcases List.mem_or_eq_of_mem_set hx with h | rfl
    · rcases List.mem_or_eq_of_mem_set h with h | rfl
      · exact h
      · exact List.getElem?_mem hb
    · exact List.getElem?_mem ha
  · exact hx

theorem swaps_length (ps : List (Nat × Nat)) (s : strings.String) :
    (ps.foldl (fun s p => String.swap s p.1 p.2) s).length = s.length := by
  induction ps generalizing s with
  | nil => rfl
  | cons p ps ih => rw [List.foldl_cons, ih, swap_length]

theorem swaps_subset (ps : List (Nat × Nat)) (s : strings.String) :
    ∀ x ∈ ps.foldl (fun s p => String.swap s p.1 p.2) s, x ∈ s := by
  induction ps generalizing s with
  | nil => intro x hx; exact hx
  | cons p ps ih =>
    intro x hx
    rw [List.foldl_cons] at hx
    exact swap_subset s p.1 p.2 x (ih _ x hx)

theorem Shuffle_copy (E : Env) (s : strings.String) (rnd : Nat) :
    (s.Shuffle E rnd).2.1 = (s.Shuffle E rnd).1 := rfl

theorem Shuffle_length (E : Env) (s : strings.String) (rnd : Nat) :
    (s.Shuffle E rnd).1.length = s.length :=
  swaps_length _ s

theorem Shuffle_subset (E : Env) (s : strings.String) (rnd : Nat) :
    ∀ x ∈ (s.Shuffle E rnd).1, x ∈ s :=
  swaps_subset _ s

/-! ## The loop over the picks -/

theorem loop_cons (E : Env) (c : complexity) (sum fuel : Nat) (p : Int) (picks : List Int)
    (abc : strings.String) (rnd : Nat) (hash : strings.String) (e : Int) :
    digest.Write.loop E c sum fuel (p :: picks) abc rnd hash e =
      match digest.Write.attempts E c hash fuel
          (abc.Shuffle E (E.randSeed (int64 (int64 sum + int64 p + int64 e)))).2.1 p 0 e with
      | none => none
      | some (.exhausted _) =>
        some ((abc.Shuffle E (E.randSeed (int64 (int64 sum + int64 p + int64 e)))).2.2, hash, true)
      | some (.accepted e1 next) =>
        digest.Write.loop E c sum fuel picks
          (abc.Shuffle E (E.randSeed (int64 (int64 sum + int64 p + int64 e)))).1
          (abc.Shuffle E (E.randSeed (int64 (int64 sum + int64 p + int64 e)))).2.2
          (hash ++ [next]) e1 := by
  rfl

/-- Whatever is kept by appending an accepted rune is kept by the loop. -/
theorem loop_inv (E : Env) (c : complexity) (sum fuel : Nat) (I : strings.String → Prop)
    (hstep : ∀ h r, I h → c h r = none → I (h ++ [r])) (picks : List Int) :
    ∀ (abc : strings.String) (rnd : Nat) (hash : strings.String) (e : Int)
      (out : Nat × strings.String × Bool),
      I hash → digest.Write.loop E c sum fuel picks abc rnd hash e = some out → I out.2.1 := by
  induction picks with
  | nil =>
    intro abc rnd hash e out hI h
    simp only [digest.Write.loop, Option.some.injEq] at h
    subst h
    exact hI
  | cons p picks ih =>
    intro abc rnd hash e out hI h
    rw [loop_cons] at h
    split at h
    · cases h
    · simp only [Option.some.injEq] at h
      subst h
      exact hI
    · rename_i e1 next heq
      exact ih _ _ _ _ out (hstep _ _ hI (attempts_accepted E c hash fuel _ _ _ _ _ _ heq)) h

theorem loop_terminates (E : Env) (c : complexity) (sum fuel : Nat) (hf : 0 < fuel)
    (picks : List Int) :
    ∀ (abc : strings.String) (rnd : Nat) (hash : strings.String) (e : Int),
      abc.length ≤ fuel → ∃ out, digest.Write.loop E c sum fuel picks abc rnd hash e = some out := by
  induction picks with
  | nil =>
    intro abc rnd hash e _
    exact ⟨_, rfl⟩
  | cons p picks ih =>
    intro abc rnd hash e hlen
    rw [loop_cons]
    obtain ⟨r, hr⟩ := attempts_terminates E c hash fuel
      (abc.Shuffle E (E.randSeed (int64 (int64 sum + int64 p + int64 e)))).2.1 p 0 e hf
      (by rw [Shuffle_copy, Shuffle_length]; exact hlen)
    rw [hr]
    cases r with
    | exhausted e1 => exact ⟨_, rfl⟩
    | accepted e1 next =>
      exact ih _ _ _ _ (by rw [Shuffle_length]; exact hlen)

/-- The loop appends one rune for each pick, unless it stops on an exhausted alphabet,
which leaves the hash shorter. -/
theorem loop_length (E : Env) (c : complexity) (sum fuel : Nat) (picks : List Int) :
    ∀ (abc : strings.String) (rnd : Nat) (hash : strings.String) (e : Int)
      (out : Nat × strings.String × Bool),
      digest.Write.loop E c sum fuel picks abc rnd hash e = some out →
        (out.2.2 = false → out.2.1.length = hash.length + picks.length) ∧
        (out.2.2 = true → out.2.1.length < hash.length + picks.length) := by
  induction picks with
  | nil =>
    intro abc rnd hash e out h
    simp only [digest.Write.loop, Option.some.injEq] at h
    subst h
    simp
  | cons p picks ih =>
    intro abc rnd hash e out h
    rw [loop_cons] at h
    split at h
    · cases h
    · simp only [Option.some.injEq] at h
      subst h
      simp
    · have := ih _ _ _ _ out h
      simp only [List.length_append, List.length_singleton, List.length_cons, List.length_nil] at this ⊢
      constructor
      · intro hs
        have := this.1 hs
        omega
      · intro hs
        have := this.2 hs
        omega

theorem loop_mem (E : Env) (c : complexity) (sum fuel : Nat) (picks : List Int) :
    ∀ (abc : strings.String) (rnd : Nat) (hash : strings.String) (e : Int)
      (out : Nat × strings.String × Bool),
      digest.Write.loop E c sum fuel picks abc rnd hash e = some out →
        ∀ x ∈ out.2.1, x ∈ hash ∨ x ∈ abc := by
  induction picks with
  | nil =>
    intro abc rnd hash e out h x hx
    simp only [digest.Write.loop, Option.some.injEq] at h
    subst h
    exact Or.inl hx
  | cons p picks ih =>
    intro abc rnd hash e out h x hx
    rw [loop_cons] at h
    split at h
    · cases h
    · simp only [Option.some.injEq] at h
      subst h
      exact Or.inl hx
    · rename_i e1 next heq
      have hn := attempts_mem E c hash fuel _ _ _ _ _ _ heq
      rw [Shuffle_copy] at hn
      rcases ih _ _ _ _ out h x hx with h1 | h1
      · rcases List.mem_append.1 h1 with h2 | h2
        · exact Or.inl h2
        · rw [List.mem_singleton] at h2
          subst h2
          exact Or.inr (Shuffle_subset E abc _ _ hn)
      · exact Or.inr (Shuffle_subset E abc _ _ h1)


/-! ## Write -/

/-- Write, in terms of its loop. -/
theorem Write_def (E : Env) (fuel : Nat) (d : digest) (data : List Nat) :
    d.Write E fuel data =
      (digest.Write.loop E d.opts.complex ((d.Hash64.Write data).1.Sum64 E) fuel
          (digest.Write.picks E d data) (strings.New E.unicode d.opts.alphabet) d.rnd [] 0).map
        (fun out =>
          ({ d with Hash64 := (d.Hash64.Write data).1, rnd := out.1, hash := out.2.1 },
            if out.2.2 = true then
              (if d.opts.size = Max then ((data.length : Int), none)
               else (0, some Error.ErrUnreachableComplexity))
            else ((data.length : Int), none))) := by
  unfold digest.Write digest.Write.picks
  simp only []
  cases digest.Write.loop E d.opts.complex ((d.Hash64.Write data).1.Sum64 E) fuel _
      (strings.New E.unicode d.opts.alphabet) d.rnd [] 0 with
  | none => rfl
  | some out =>
    obtain ⟨rnd, hash, stopped⟩ := out
    cases stopped
    · rfl
    · simp only [Option.map_some', if_true]
      split <;> rfl

theorem picks_length (E : Env) (d : digest) (data : List Nat) :
    (digest.Write.picks E d data).length
      = if d.opts.size = Max then 64 else if d.opts.size < 64 then d.opts.size.toNat else 64 := by
  unfold digest.Write.picks
  have h64 : (btoi ((d.Hash64.Write data).1.Sum E [])).length = 64 := by
    unfold btoi hash64.Sum
    rw [List.length_map, List.nil_append, E.sha512Sum_length]
  simp only [hash64.Size]
  split
  · exact h64
  · split
    · rw [List.length_take, h64]
      omega
    · exact h64

theorem Write_terminates (E : Env) (fuel : Nat) (d : digest) (data : List Nat)
    (hf : max 1 d.opts.alphabet.length ≤ fuel) :
    ∃ r, d.Write E fuel data = some r := by
  rw [Write_def]
  obtain ⟨out, hout⟩ := loop_terminates E d.opts.complex ((d.Hash64.Write data).1.Sum64 E) fuel
    (by omega) (digest.Write.picks E d data) (strings.New E.unicode d.opts.alphabet) d.rnd [] 0
    (by simp only [strings.New, List.length_map]; omega)
  rw [hout]
  exact ⟨_, rfl⟩

/-- Whatever holds of the empty hash and is kept by appending an accepted rune holds
of the hash a Write leaves, however the Write ends. -/
theorem Write_inv (E : Env) (fuel : Nat) (d : digest) (data : List Nat)
    (I : strings.String → Prop) (h0 : I [])
    (hstep : ∀ h r, I h → d.opts.complex h r = none → I (h ++ [r]))
    (r : digest × Int × Option Error) (hw : d.Write E fuel data = some r) : I r.1.hash := by
  rw [Write_def] at hw
  cases hl : digest.Write.loop E d.opts.complex ((d.Hash64.Write data).1.Sum64 E) fuel
      (digest.Write.picks E d data) (strings.New E.unicode d.opts.alphabet) d.rnd [] 0 with
  | none => rw [hl] at hw; cases hw
  | some out =>
    rw [hl] at hw
    simp only [Option.map_some', Option.some.injEq] at hw
    subst hw
    exact loop_inv E _ _ fuel I hstep _ _ _ _ _ out h0 hl

theorem Write_opts (E : Env) (fuel : Nat) (d : digest) (data : List Nat)
    (r : digest × Int × Option Error) (hw : d.Write E fuel data = some r) : r.1.opts = d.opts := by
  rw [Write_def] at hw
  cases hl : digest.Write.loop E d.opts.complex ((d.Hash64.Write data).1.Sum64 E) fuel
      (digest.Write.picks E d data) (strings.New E.unicode d.opts.alphabet) d.rnd [] 0 with
  | none => rw [hl] at hw; cases hw
  | some out =>
    rw [hl] at hw
    simp only [Option.map_some', Option.some.injEq] at hw
    subst hw
    rfl

/-! ## The three invariants -/

theorem uniqueCheck_nil (U : Unicode) (r : Rune) : uniqueCheck U [] r = true := rfl

theorem typeCheck_nil (r : Rune) : typeCheck [] r = true := rfl

theorem characterCheck_nil (r : Rune) : characterCheck [] r = true := rfl

theorem New_opts (E : Env) (opts : List OptionFn) :
    (New E opts).opts = opts.foldl (fun o opt => opt o)
      { alphabet := ABC, complex := fun _ _ => none, size := Enough } := rfl

theorem pairwise_step (U : Unicode) (c : complexity) (hc : Enforces c (uniqueCheck U))
    (h : strings.String) (r : Rune) (hI : h.Pairwise (fun a b => a.Same U b = false))
    (hacc : c h r = none) : (h ++ [r]).Pairwise (fun a b => a.Same U b = false) := by
  have hu := hc h r hacc
  unfold uniqueCheck at hu
  rw [List.pairwise_append]
  refine ⟨hI, List.pairwise_singleton _ _, ?_⟩
  intro a ha b hb
  rw [List.mem_singleton] at hb
  subst hb
  simp only [Bool.not_eq_true', List.any_eq_false] at hu
  simpa using hu a ha

theorem chain_step (R : Rune → Rune → Prop) (chk : strings.String → Rune → Bool)
    (hchk : ∀ h x r, chk (h ++ [x]) r = true → R x r)
    (c : complexity) (hc : Enforces c chk)
    (h : strings.String) (r : Rune) (hI : h.Chain' R)
    (hacc : c h r = none) : (h ++ [r]).Chain' R := by
  have hu := hc h r hacc
  rw [List.chain'_append]
  refine ⟨hI, List.chain'_singleton _, ?_⟩
  intro x hx y hy
  simp only [List.head?_cons, Option.mem_def, Option.some.injEq] at hy
  subst hy
  rcases snoc_cases h with rfl | ⟨l, z, rfl⟩
  · simp at hx
  · rw [List.getLast?_concat] at hx
    simp only [Option.mem_def, Option.some.injEq] at hx
    subst hx
    exact hchk l _ _ hu

theorem pairwise_getElem? {α : Type} (R : α → α → Prop) (l : List α) (hl : l.Pairwise R)
    (i j : Nat) (a b : α) (hij : i < j) (ha : l[i]? = some a) (hb : l[j]? = some b) : R a b := by
  obtain ⟨hi, rfl⟩ := List.getElem?_eq_some.1 ha
  obtain ⟨hj, rfl⟩ := List.getElem?_eq_some.1 hb
  exact List.pairwise_iff_getElem.1 hl i j hi hj hij

theorem chain_getElem? {α : Type} (R : α → α → Prop) (l : List α) (hl : l.Chain' R)
    (i : Nat) (a b : α) (ha : l[i]? = some a) (hb : l[i + 1]? = some b) : R a b := by
  obtain ⟨hi, rfl⟩ := List.getElem?_eq_some.1 ha
  obtain ⟨hj, rfl⟩ := List.getElem?_eq_some.1 hb
  have := List.chain'_iff_get.1 hl i (by omega)
  simpa using this


/-! ## The claims -/

/-- C1 (uniqueness invariant).  Take any arguments of `New` among which `Unique` occurs,
any generator `d` carrying the options `New` builds from them (a fresh one, or one
left by earlier Writes, which never change the options), any data and any bound
`fuel` of at least `max 1 (len alphabet)` on the attempts for one pick.  Then Write
returns, and in the hash it leaves, whether it succeeded, stopped early in Max
mode or failed, no two runes at positions `i < j` are the same regardless of case. -/
theorem C1_unique_invariant (E : Env) (args : List Arg) (d : digest) (data : List Nat)
    (fuel : Nat) (hU : Arg.Unique ∈ args)
    (hd : d.opts = (New E (args.map (Arg.fn E.unicode))).opts)
    (hf : max 1 d.opts.alphabet.length ≤ fuel) :
    ∃ r, d.Write E fuel data = some r ∧
      ∀ (i j : Nat) (a b : Rune), i < j → r.1.hash[i]? = some a → r.1.hash[j]? = some b →
        a.Same E.unicode b = false := by
  obtain ⟨r, hr⟩ := Write_terminates E fuel d data hf
  refine ⟨r, hr, ?_⟩
  have henf : Enforces d.opts.complex (uniqueCheck E.unicode) := by
    rw [hd, New_opts]
    exact foldl_enforces E.unicode _ (uniqueCheck_nil E.unicode) Arg.Unique
      (fun o => unique_enforces E.unicode _) args hU _
  have hp : r.1.hash.Pairwise (fun a b => a.Same E.unicode b = false) :=
    Write_inv E fuel d data _ List.Pairwise.nil
      (fun h x hI hacc => pairwise_step E.unicode _ henf h x hI hacc) r hr
  intro i j a b hij ha hb
  exact pairwise_getElem? _ _ hp i j a b hij ha hb

/-- C2 (category alternation invariant).  Take any arguments of `New` among which
`NoTypeRepetition` occurs, any generator `d` carrying the options built from them, any
data and any `fuel` of at least `max 1 (len alphabet)`.  Then Write returns, and in
the hash it leaves, however it ended, any two adjacent runes have different
type bit masks. -/
theorem C2_type_alternation_invariant (E : Env) (args : List Arg) (d : digest)
    (data : List Nat) (fuel : Nat) (hT : Arg.NoTypeRepetition ∈ args)
    (hd : d.opts = (New E (args.map (Arg.fn E.unicode))).opts)
    (hf : max 1 d.opts.alphabet.length ≤ fuel) :
    ∃ r, d.Write E fuel data = some r ∧
      ∀ (i : Nat) (a b : Rune), r.1.hash[i]? = some a → r.1.hash[i + 1]? = some b →
        a.OfType b = false := by
  obtain ⟨r, hr⟩ := Write_terminates E fuel d data hf
  refine ⟨r, hr, ?_⟩
  have henf : Enforces d.opts.complex typeCheck := by
    rw [hd, New_opts]
    exact foldl_enforces E.unicode _ typeCheck_nil Arg.NoTypeRepetition
      (fun o => noTypeRepetition_enforces _) args hT _
  have hchk : ∀ (h : strings.String) (x r : Rune), typeCheck (h ++ [x]) r = true →
      x.OfType r = false := by
    intro h x r hc
    unfold typeCheck at hc
    rw [List.getLast?_concat] at hc
    simpa using hc
  have hp : r.1.hash.Chain' (fun a b => a.OfType b = false) :=
    Write_inv E fuel d data _ List.chain'_nil
      (fun h x hI hacc => chain_step _ typeCheck hchk _ henf h x hI hacc) r hr
  intro i a b ha hb
  exact chain_getElem? _ _ hp i a b ha hb

/-- C3 (letter adjacency invariant).  Take any arguments of `New` among which
`NoCharacterRepetition` occurs, any generator `d` carrying the options built from
them, any data and any `fuel` of at least `max 1 (len alphabet)`.  Then Write
returns, and in the hash it leaves, however it ended, no two adjacent runes are
both letters. -/
theorem C3_letter_adjacency_invariant (E : Env) (args : List Arg) (d : digest)
    (data : List Nat) (fuel : Nat) (hC : Arg.NoCharacterRepetition ∈ args)
    (hd : d.opts = (New E (args.map (Arg.fn E.unicode))).opts)
    (hf : max 1 d.opts.alphabet.length ≤ fuel) :
    ∃ r, d.Write E fuel data = some r ∧
      ∀ (i : Nat) (a b : Rune), r.1.hash[i]? = some a → r.1.hash[i + 1]? = some b →
        ¬ (a.Is Letter = true ∧ b.Is Letter = true) := by
  obtain ⟨r, hr⟩ := Write_terminates E fuel d data hf
  refine ⟨r, hr, ?_⟩
  have henf : Enforces d.opts.complex characterCheck := by
    rw [hd, New_opts]
    exact foldl_enforces E.unicode _ characterCheck_nil Arg.NoCharacterRepetition
      (fun o => noCharacterRepetition_enforces _) args hC _
  have hchk : ∀ (h : strings.String) (x r : Rune), characterCheck (h ++ [x]) r = true →
      ¬ (x.Is Letter = true ∧ r.Is Letter = true) := by
    intro h x r hc
    unfold characterCheck at hc
    rw [List.getLast?_concat] at hc
    change (!(x.Is Letter && r.Is Letter)) = true at hc
    rintro ⟨h1, h2⟩
    rw [h1, h2] at hc
    cases hc
  have hp : r.1.hash.Chain' (fun a b => ¬ (a.Is Letter = true ∧ b.Is Letter = true)) :=
    Write_inv E fuel d data _ List.chain'_nil
      (fun h x hI hacc => chain_step _ characterCheck hchk _ henf h x hI hacc) r hr
  intro i a b ha hb
  exact chain_getElem? _ _ hp i a b ha hb


theorem Write_mem (E : Env) (fuel : Nat) (d : digest) (data : List Nat)
    (r : digest × Int × Option Error) (hw : d.Write E fuel data = some r) :
    ∀ x ∈ r.1.hash, x ∈ strings.New E.unicode d.opts.alphabet := by
  rw [Write_def] at hw
  cases hl : digest.Write.loop E d.opts.complex ((d.Hash64.Write data).1.Sum64 E) fuel
      (digest.Write.picks E d data) (strings.New E.unicode d.opts.alphabet) d.rnd [] 0 with
  | none => rw [hl] at hw; cases hw
  | some out =>
    rw [hl] at hw
    simp only [Option.map_some', Option.some.injEq] at hw
    subst hw
    intro x hx
    rcases loop_mem E _ _ fuel _ _ _ _ _ out hl x hx with h | h
    · cases h
    · exact h

/-- The two ways a Write ends: `(len(data), nil)`, with one rune for each pick unless
the size is `Max`; or, for a size other than `Max`, `(0, ErrUnreachableComplexity)`
with fewer runes than picks. -/
theorem Write_result (E : Env) (fuel : Nat) (d : digest) (data : List Nat)
    (r : digest × Int × Option Error) (hw : d.Write E fuel data = some r) :
    (r.2 = ((data.length : Int), none) ∧ r.1.hash.length ≤ (digest.Write.picks E d data).length ∧
        (d.opts.size ≠ Max → r.1.hash.length = (digest.Write.picks E d data).length)) ∨
    (r.2 = (0, some Error.ErrUnreachableComplexity) ∧ d.opts.size ≠ Max ∧
        r.1.hash.length < (digest.Write.picks E d data).length) := by
  rw [Write_def] at hw
  cases hl : digest.Write.loop E d.opts.complex ((d.Hash64.Write data).1.Sum64 E) fuel
      (digest.Write.picks E d data) (strings.New E.unicode d.opts.alphabet) d.rnd [] 0 with
  | none => rw [hl] at hw; cases hw
  | some out =>
    rw [hl] at hw
    simp only [Option.map_some', Option.some.injEq] at hw
    subst hw
    have hlen := loop_length E _ _ fuel _ _ _ _ _ out hl
    simp only [List.length_nil, Nat.zero_add] at hlen
    cases hs : out.2.2 with
    | false =>
      left
      have h1 := hlen.1 hs
      simp only [Bool.false_eq_true, if_false, true_and]
      exact ⟨le_of_eq h1, fun _ => h1⟩
    | true =>
      have h2 := hlen.2 hs
      by_cases hm : d.opts.size = Max
      · left
        simp only [if_true, if_pos hm, true_and]
        exact ⟨le_of_lt h2, fun h => absurd hm h⟩
      · right
        simp only [if_true, if_neg hm, true_and]
        exact ⟨hm, h2⟩

/-- C4 (size contract).  For any generator `d` with a configured size `n > 0`, whatever
its alphabet and rules, any data and any `fuel` of at least `max 1 (len alphabet)`:
Write returns, and if the error it returns is nil the hash it leaves has exactly
`min n 64` runes. -/
theorem C4_size_contract (E : Env) (d : digest) (data : List Nat) (fuel : Nat)
    (hn : 0 < d.opts.size) (hf : max 1 d.opts.alphabet.length ≤ fuel) :
    ∃ r, d.Write E fuel data = some r ∧
      (r.2.2 = none → (r.1.hash.length : Int) = min d.opts.size 64) := by
  obtain ⟨r, hr⟩ := Write_terminates E fuel d data hf
  refine ⟨r, hr, ?_⟩
  intro herr
  have hmax : d.opts.size ≠ Max := by
    unfold Max
    omega
  rcases Write_result E fuel d data r hr with ⟨_, _, h⟩ | ⟨h, _, _⟩
  · rw [h hmax, picks_length, if_neg hmax]
    split <;> omega
  · rw [h] at herr
    cases herr

/-- C7 (Max never fails).  For any generator `d` with size `Max`, whatever its alphabet
(the empty one included) and rules, any data and any `fuel` of at least
`max 1 (len alphabet)`: Write returns `(len(data), nil)` and the hash it leaves
has at most 64 runes. -/
theorem C7_max_never_fails (E : Env) (d : digest) (data : List Nat) (fuel : Nat)
    (hmax : d.opts.size = Max) (hf : max 1 d.opts.alphabet.length ≤ fuel) :
    ∃ r, d.Write E fuel data = some r ∧ r.2 = ((data.length : Int), none) ∧
      r.1.hash.length ≤ 64 := by
  obtain ⟨r, hr⟩ := Write_terminates E fuel d data hf
  refine ⟨r, hr, ?_⟩
  rcases Write_result E fuel d data r hr with ⟨h1, h2, _⟩ | ⟨_, h, _⟩
  · refine ⟨h1, ?_⟩
    rw [picks_length, if_pos hmax] at h2
    exact h2
  · exact absurd hmax h

theorem distinct_bound (U : Unicode) (alphabet : List Char) (l : strings.String)
    (hsub : ∀ x ∈ l, x ∈ strings.New U alphabet)
    (hp : l.Pairwise (fun a b => a.Same U b = false)) :
    l.length ≤ distinctIgnoringCase U alphabet := by
  have hnd : (l.map (fun r => U.ToUpper r.rune)).Nodup := by
    unfold List.Nodup
    rw [List.pairwise_map]
    refine hp.imp ?_
    intro a b hab
    unfold Rune.Same at hab
    simpa using hab
  have hss : l.map (fun r => U.ToUpper r.rune) ⊆ (alphabet.map U.ToUpper).dedup := by
    intro c hc
    rw [List.mem_map] at hc
    obtain ⟨r, hr, rfl⟩ := hc
    have := hsub r hr
    unfold strings.New at this
    rw [List.mem_map] at this
    obtain ⟨c, hc, rfl⟩ := this
    rw [List.mem_dedup]
    exact List.mem_map_of_mem _ hc
  have := (List.subperm_of_subset hnd hss).length_le
  rw [List.length_map] at this
  exact this

/-- C5 (exhaustion failure).  Take arguments of `New` among which `Unique` occurs, a
generator `d` carrying the options built from them, with a size `n > 0` and an
alphabet holding fewer than `min n 64` characters that are pairwise distinct
regardless of case (the empty alphabet included), any data and any `fuel` of at
least `max 1 (len alphabet)`.  Then Write returns `(0, ErrUnreachableComplexity)`. -/
theorem C5_exhaustion_failure (E : Env) (args : List Arg) (d : digest) (data : List Nat)
    (fuel : Nat) (hU : Arg.Unique ∈ args)
    (hd : d.opts = (New E (args.map (Arg.fn E.unicode))).opts)
    (hn : 0 < d.opts.size)
    (hsmall : (distinctIgnoringCase E.unicode d.opts.alphabet : Int) < min d.opts.size 64)
    (hf : max 1 d.opts.alphabet.length ≤ fuel) :
    ∃ r, d.Write E fuel data = some r ∧ r.2 = (0, some Error.ErrUnreachableComplexity) := by
  obtain ⟨r, hr⟩ := Write_terminates E fuel d data hf
  refine ⟨r, hr, ?_⟩
  have hmax : d.opts.size ≠ Max := by
    unfold Max
    omega
  rcases Write_result E fuel d data r hr with ⟨_, _, h⟩ | ⟨h, _, _⟩
  · exfalso
    have hlen := h hmax
    rw [picks_length, if_neg hmax] at hlen
    have henf : Enforces d.opts.complex (uniqueCheck E.unicode) := by
      rw [hd, New_opts]
      exact foldl_enforces E.unicode _ (uniqueCheck_nil E.unicode) Arg.Unique
        (fun o => unique_enforces E.unicode _) args hU _
    have hp : r.1.hash.Pairwise (fun a b => a.Same E.unicode b = false) :=
      Write_inv E fuel d data _ List.Pairwise.nil
        (fun h x hI hacc => pairwise_step E.unicode _ henf h x hI hacc) r hr
    have hb := distinct_bound E.unicode d.opts.alphabet r.1.hash
      (Write_mem E fuel d data r hr) hp
    split at hlen <;> omega
  · exact h


/-! ## A one-rune alphabet -/

theorem attempts_exhausted_of_length_le_one (E : Env) (c : complexity) (hash : strings.String)
    (fuel : Nat) (src : strings.String) (p a e : Int) (hlen : src.length ≤ 1) :
    ∃ e1, digest.Write.attempts E c hash (fuel + 1) src p a e = some (.exhausted e1) := by
  rw [attempts_succ]
  have hempty : (pick src (sin E (p + a) (src.Len - 1))).1.Empty = true := by
    unfold String.Empty
    rcases Nat.eq_zero_or_pos src.length with h0 | h0
    · have := pick_length_le src (sin E (p + a) (src.Len - 1))
      simp only [beq_iff_eq]
      omega
    · have hne : src ≠ [] := List.length_pos.1 h0
      have hi := sin_index E (p + a) src hne
      have := pick_length src _ hi.1 hi.2
      simp only [beq_iff_eq]
      omega
  rw [if_pos hempty]
  exact ⟨_, rfl⟩

theorem Write_fails_of_length_le_one (E : Env) (fuel : Nat) (d : digest) (data : List Nat)
    (hlen : d.opts.alphabet.length ≤ 1) (hn : 0 < d.opts.size) :
    ∃ r, d.Write E (fuel + 1) data = some r ∧ r.2 = (0, some Error.ErrUnreachableComplexity) ∧
      r.1.hash = [] := by
  have hmax : d.opts.size ≠ Max := by
    unfold Max
    omega
  have hpl := picks_length E d data
  rw [if_neg hmax] at hpl
  rw [Write_def]
  cases hp : digest.Write.picks E d data with
  | nil =>
    rw [hp] at hpl
    simp only [List.length_nil] at hpl
    split at hpl <;> omega
  | cons p picks =>
    rw [loop_cons]
    obtain ⟨e1, he1⟩ := attempts_exhausted_of_length_le_one E d.opts.complex [] fuel
      ((strings.New E.unicode d.opts.alphabet).Shuffle E
        (E.randSeed (int64 (int64 ((d.Hash64.Write data).1.Sum64 E) + int64 p + int64 0)))).2.1
      p 0 0
      (by rw [Shuffle_copy, Shuffle_length]; simp only [strings.New, List.length_map]; exact hlen)
    rw [he1]
    refine ⟨_, rfl, ?_, rfl⟩
    simp only [if_true, if_neg hmax]

/-- C6 (what ErrUnreachableComplexity means), at the input where the code departs from
it.  For the alphabet `a` (`Alphabet("|a")`), `Size(1)` and no rule, every Write, on any
data and with any number `fuel + 1` of attempts allowed, returns
`(0, ErrUnreachableComplexity)`; yet a hash of `min 1 64 = 1` rune can be generated:
the one-rune sequence `a`, which the rule chain accepts. -/
theorem C6_unreachable_despite_generable (E : Env) (data : List Nat) (fuel : Nat) :
    (∃ r, (New E ([Arg.Alphabet "|a".toList, Arg.Size 1].map (Arg.fn E.unicode))).Write E
        (fuel + 1) data = some r ∧ r.2 = (0, some Error.ErrUnreachableComplexity)) ∧
    Generable (New E ([Arg.Alphabet "|a".toList, Arg.Size 1].map (Arg.fn E.unicode))).opts.complex
      (strings.New E.unicode
        (New E ([Arg.Alphabet "|a".toList, Arg.Size 1].map (Arg.fn E.unicode))).opts.alphabet)
      (min (New E ([Arg.Alphabet "|a".toList, Arg.Size 1].map (Arg.fn E.unicode))).opts.size
        64).toNat := by
  have halpha : (New E ([Arg.Alphabet "|a".toList, Arg.Size 1].map
      (Arg.fn E.unicode))).opts.alphabet = ['a'] := by rfl
  have hsize : (New E ([Arg.Alphabet "|a".toList, Arg.Size 1].map
      (Arg.fn E.unicode))).opts.size = 1 := by rfl
  constructor
  · obtain ⟨r, hr, hres, _⟩ := Write_fails_of_length_le_one E fuel
      (New E ([Arg.Alphabet "|a".toList, Arg.Size 1].map (Arg.fn E.unicode))) data
      (by rw [halpha]; decide) (by rw [hsize]; decide)
    exact ⟨r, hr, hres⟩
  · rw [halpha, hsize]
    refine ⟨[NewRune E.unicode 'a'], rfl, ?_, ?_⟩
    · intro x hx
      exact hx
    · intro pre r post _
      rfl


/-! ## Several Writes -/

/-- The state of `rnd` a Write starts from has no part in the hash or the way the loop ends. -/
theorem loop_rnd (E : Env) (c : complexity) (sum fuel : Nat) (picks : List Int)
    (abc : strings.String) (rnd1 rnd2 : Nat) (hash : strings.String) (e : Int) :
    (digest.Write.loop E c sum fuel picks abc rnd1 hash e).map (fun out => out.2) =
      (digest.Write.loop E c sum fuel picks abc rnd2 hash e).map (fun out => out.2) := by
  cases picks with
  | nil => rfl
  | cons p picks => rw [loop_cons, loop_cons]

theorem Write_state (E : Env) (fuel : Nat) (d : digest) (data : List Nat)
    (r : digest × Int × Option Error) (hw : d.Write E fuel data = some r) :
    r.1.opts = d.opts ∧ r.1.Hash64.written = d.Hash64.written ++ data := by
  rw [Write_def] at hw
  cases hl : digest.Write.loop E d.opts.complex ((d.Hash64.Write data).1.Sum64 E) fuel
      (digest.Write.picks E d data) (strings.New E.unicode d.opts.alphabet) d.rnd [] 0 with
  | none => rw [hl] at hw; cases hw
  | some out =>
    rw [hl] at hw
    simp only [Option.map_some', Option.some.injEq] at hw
    subst hw
    exact ⟨rfl, rfl⟩

/-- The hash and the error of a Write are determined by the options and by all the
bytes written so far. -/
theorem Write_congr (E : Env) (fuel : Nat) (d1 d2 : digest) (x1 x2 : List Nat)
    (hopts : d1.opts = d2.opts)
    (hdata : d1.Hash64.written ++ x1 = d2.Hash64.written ++ x2) :
    (d1.Write E fuel x1).map (fun r => (r.1.hash, r.2.2)) =
      (d2.Write E fuel x2).map (fun r => (r.1.hash, r.2.2)) := by
  have hh : (d1.Hash64.Write x1).1 = (d2.Hash64.Write x2).1 := by
    unfold hash64.Write
    simp only [hdata]
  have hp : digest.Write.picks E d1 x1 = digest.Write.picks E d2 x2 := by
    unfold digest.Write.picks
    rw [hh, hopts]
  rw [Write_def, Write_def, hh, hp, hopts]
  have := loop_rnd E d2.opts.complex ((d2.Hash64.Write x2).1.Sum64 E) fuel
    (digest.Write.picks E d2 x2) (strings.New E.unicode d2.opts.alphabet) d1.rnd d2.rnd [] 0
  cases h1 : digest.Write.loop E d2.opts.complex ((d2.Hash64.Write x2).1.Sum64 E) fuel
      (digest.Write.picks E d2 x2) (strings.New E.unicode d2.opts.alphabet) d1.rnd [] 0 with
  | none =>
    rw [h1] at this
    cases h2 : digest.Write.loop E d2.opts.complex ((d2.Hash64.Write x2).1.Sum64 E) fuel
        (digest.Write.picks E d2 x2) (strings.New E.unicode d2.opts.alphabet) d2.rnd [] 0 with
    | none => rfl
    | some o2 => rw [h2] at this; cases this
  | some o1 =>
    rw [h1] at this
    cases h2 : digest.Write.loop E d2.opts.complex ((d2.Hash64.Write x2).1.Sum64 E) fuel
        (digest.Write.picks E d2 x2) (strings.New E.unicode d2.opts.alphabet) d2.rnd [] 0 with
    | none => rw [h2] at this; cases this
    | some o2 =>
      rw [h2] at this
      simp only [Option.map_some', Option.some.injEq] at this
      simp only [Option.map_some', Option.some.injEq, Prod.mk.injEq]
      rw [this]
      simp only [true_and]
      cases o2.2.2
      · rfl
      · simp only [if_true]
        split <;> rfl

/-- C8 (the output depends on the concatenation of the writes).  For any generator `d`
(a fresh one in particular), any byte strings `a` and `b` and any `fuel` of at least
`max 1 (len alphabet)`: the three Writes below return; and `Write(a)` followed by
`Write(b)` leaves the same `Sum(nil)`, and the second Write returns the same error, as
the single `Write(a ++ b)` on `d` does, whatever the first Write returned. -/
theorem C8_writes_concatenate (E : Env) (d : digest) (a b : List Nat) (fuel : Nat)
    (hf : max 1 d.opts.alphabet.length ≤ fuel) :
    ∃ r1 r2 r3, d.Write E fuel a = some r1 ∧ r1.1.Write E fuel b = some r2 ∧
      d.Write E fuel (a ++ b) = some r3 ∧
      r2.1.Sum [] = r3.1.Sum [] ∧ r2.2.2 = r3.2.2 := by
  obtain ⟨r1, h1⟩ := Write_terminates E fuel d a hf
  have hs := Write_state E fuel d a r1 h1
  obtain ⟨r2, h2⟩ := Write_terminates E fuel r1.1 b (by rw [hs.1]; exact hf)
  obtain ⟨r3, h3⟩ := Write_terminates E fuel d (a ++ b) hf
  refine ⟨r1, r2, r3, h1, h2, h3, ?_⟩
  have := Write_congr E fuel r1.1 d b (a ++ b) hs.1 (by rw [hs.2, List.append_assoc])
  rw [h2, h3] at this
  simp only [Option.map_some', Option.some.injEq, Prod.mk.injEq] at this
  refine ⟨?_, this.2⟩
  unfold digest.Sum
  rw [this.1]

/-! ## Reset -/

theorem Writes_opts (E : Env) (fuel : Nat) (inputs : List (List Nat)) :
    ∀ (d d1 : digest), digest.Writes E fuel d inputs = some d1 → d1.opts = d.opts := by
  induction inputs with
  | nil =>
    intro d d1 h
    simp only [digest.Writes, Option.some.injEq] at h
    rw [← h]
  | cons x xs ih =>
    intro d d1 h
    simp only [digest.Writes] at h
    cases hw : d.Write E fuel x with
    | none => rw [hw] at h; cases h
    | some r =>
      rw [hw] at h
      rw [ih _ _ h]
      exact (Write_state E fuel d x r hw).1

/-- C9 (Reset returns the generator to its initial state).  Let `d` be the generator
reached from `New(opts...)` by any sequence of Writes, whatever they returned.  After
Reset the generator is the newly constructed one: `Sum(nil)` is empty and a following
Write of any `x`, with any bound on the attempts, returns the same result and leaves
the same state, hence the same `Sum(nil)`, as on `New(opts...)`. -/
theorem C9_reset_restores_initial_state (E : Env) (args : List Arg)
    (inputs : List (List Nat)) (fuel : Nat) (d : digest)
    (hd : digest.Writes E fuel (New E (args.map (Arg.fn E.unicode))) inputs = some d) :
    d.Reset E = New E (args.map (Arg.fn E.unicode)) ∧
    (d.Reset E).Sum [] = [] ∧
    ∀ (x : List Nat) (f : Nat),
      (d.Reset E).Write E f x = (New E (args.map (Arg.fn E.unicode))).Write E f x := by
  have hopts := Writes_opts E fuel inputs _ _ hd
  have heq : d.Reset E = New E (args.map (Arg.fn E.unicode)) := by
    unfold digest.Reset
    rw [New] at hopts ⊢
    simp only at hopts
    cases d
    simp only at hopts
    subst hopts
    rfl
  refine ⟨heq, rfl, ?_⟩
  intro x f
  rw [heq]


/-! ## Alphabet -/

theorem expansion_eq (c : Char) : expansion c = (vocabulary c).getD [] := by
  by_cases h1 : c = '1'
  · subst h1; rfl
  by_cases h2 : c = 'n'
  · subst h2; rfl
  by_cases h3 : c = 'A'
  · subst h3; rfl
  by_cases h4 : c = 'u'
  · subst h4; rfl
  by_cases h5 : c = 'a'
  · subst h5; rfl
  by_cases h6 : c = 'l'
  · subst h6; rfl
  by_cases h7 : c = '@'
  · subst h7; rfl
  by_cases h8 : c = 's'
  · subst h8; rfl
  unfold expansion vocabulary
  rw [if_neg (not_or.2 ⟨h2, h1⟩), if_neg (not_or.2 ⟨h4, h3⟩), if_neg (not_or.2 ⟨h6, h5⟩),
    if_neg (not_or.2 ⟨h8, h7⟩), if_neg h1, if_neg h2, if_neg h3, if_neg h4, if_neg h5,
    if_neg h6, if_neg h7, if_neg h8]
  rfl

theorem foldl_vocabulary (l : List Char) :
    ∀ o : Options,
      (l.foldl (fun o t =>
          match vocabulary t with
          | none => o
          | some s => { o with alphabet := o.alphabet ++ s }) o).alphabet
        = o.alphabet ++ l.flatMap expansion := by
  induction l with
  | nil => intro o; simp
  | cons t l ih =>
    intro o
    rw [List.foldl_cons, ih, List.flatMap_cons, expansion_eq t]
    cases vocabulary t <;> simp

theorem SplitN2_of_not_mem (s : List Char) (sep : Char) (h : sep ∉ s) :
    stdstrings.SplitN2 s sep = [s] := by
  unfold stdstrings.SplitN2 stdstrings.Index
  simp [h]

theorem SplitN2_of_mem (s : List Char) (sep : Char) (h : sep ∈ s) :
    stdstrings.SplitN2 s sep =
      [s.takeWhile (fun c => c != sep), (s.dropWhile (fun c => c != sep)).drop 1] := by
  have hidx : ∀ l : List Char, sep ∈ l →
      l.take (l.indexOf sep) = l.takeWhile (fun c => c != sep) ∧
      l.drop (l.indexOf sep + 1) = (l.dropWhile (fun c => c != sep)).drop 1 := by
    intro l
    induction l with
    | nil => intro hm; cases hm
    | cons c l ih =>
      intro hm
      by_cases hc : c = sep
      · subst hc
        simp [List.indexOf_cons_self]
      · have hm2 : sep ∈ l := by
          rcases List.mem_cons.1 hm with h1 | h1
          · exact absurd h1.symm hc
          · exact h1
        have := ih hm2
        rw [List.indexOf_cons_ne _ hc]
        simp [hc, this.1, this.2]
  unfold stdstrings.SplitN2 stdstrings.Index
  simp only [if_pos h]
  have hnn : ¬ ((s.indexOf sep : Int) < 0) := by omega
  rw [if_neg hnn, Int.toNat_ofNat, (hidx s h).1, (hidx s h).2]

theorem takeWhile_of_not_mem (s : List Char) (sep : Char) (h : sep ∉ s) :
    s.takeWhile (fun c => c != sep) = s ∧ s.dropWhile (fun c => c != sep) = [] := by
  induction s with
  | nil => exact ⟨rfl, rfl⟩
  | cons c l ih =>
    have hc : c ≠ sep := fun hc => h (hc ▸ List.mem_cons_self _ _)
    have hl : sep ∉ l := fun hl => h (List.mem_cons_of_mem _ hl)
    simp [hc, ih hl]

theorem Alphabet_alphabet (tokens : List Char) (o : Options) (h : tokens ≠ []) :
    (Alphabet tokens o).alphabet = alphabetOfTokens tokens := by
  have hlen : ¬ tokens.length = 0 := fun h0 => h (List.length_eq_zero.1 h0)
  unfold Alphabet alphabetOfTokens
  rw [if_neg hlen]
  by_cases hm : '|' ∈ tokens
  · rw [SplitN2_of_mem tokens '|' hm]
    simp [foldl_vocabulary]
  · rw [SplitN2_of_not_mem tokens '|' hm]
    have := takeWhile_of_not_mem tokens '|' hm
    simp [foldl_vocabulary, this.1, this.2]

/-- C10 (alphabet token expansion).  For every non-empty token string, `Alphabet(tokens)`
sets the alphabet to the expansions, in order, of the recognised codes before the
first `|` (unrecognised codes giving nothing) followed by the text after the first
`|`; so `Alphabet("nuls")` gives the default alphabet `ABC` and `Alphabet("n|_-")`
gives `0123456789_-`. -/
theorem C10_alphabet_expansion (tokens : List Char) (o : Options) (h : tokens ≠ []) :
    (Alphabet tokens o).alphabet = alphabetOfTokens tokens ∧
    (Alphabet NULS o).alphabet = ABC ∧
    (Alphabet "n|_-".toList o).alphabet = "0123456789_-".toList := by
  refine ⟨Alphabet_alphabet tokens o h, ?_, ?_⟩
  · rw [Alphabet_alphabet NULS o (by decide)]
    decide
  · rw [Alphabet_alphabet _ o (by decide)]
    decide


/-! ## The hypotheses of the theorems are met: concrete runs -/

set_option maxRecDepth 1000000 in
/-- C1 at a concrete input: alphabet `a1b?C`, size 3, the three rules, data `1 2 3`, up to
5 attempts for one pick.  Write leaves the hash `b?C`. -/
theorem C1_unique_invariant_witness :
    (Arg.Unique ∈ demoArgs ∧ max 1 demoDigest.opts.alphabet.length ≤ 5 ∧
      digest.observe (demoDigest.Write demoEnv 5 [1, 2, 3]) = some ("b?C".toList, 3, none)) ∧
    ∃ r, demoDigest.Write demoEnv 5 [1, 2, 3] = some r ∧
      ∀ (i j : Nat) (a b : Rune), i < j → r.1.hash[i]? = some a → r.1.hash[j]? = some b →
        a.Same demoEnv.unicode b = false :=
  ⟨⟨by decide, by decide, by decide⟩,
    C1_unique_invariant demoEnv demoArgs demoDigest [1, 2, 3] 5 (by decide) rfl (by decide)⟩

set_option maxRecDepth 1000000 in
/-- C2 at a concrete input: the same generator, data `7`; Write leaves the hash `a?1`. -/
theorem C2_type_alternation_invariant_witness :
    (Arg.NoTypeRepetition ∈ demoArgs ∧ max 1 demoDigest.opts.alphabet.length ≤ 5 ∧
      digest.observe (demoDigest.Write demoEnv 5 [7]) = some ("a?1".toList, 1, none)) ∧
    ∃ r, demoDigest.Write demoEnv 5 [7] = some r ∧
      ∀ (i : Nat) (a b : Rune), r.1.hash[i]? = some a → r.1.hash[i + 1]? = some b →
        a.OfType b = false :=
  ⟨⟨by decide, by decide, by decide⟩,
    C2_type_alternation_invariant demoEnv demoArgs demoDigest [7] 5 (by decide) rfl
      (by decide)⟩

set_option maxRecDepth 1000000 in
/-- C3 at a concrete input: the same generator, data `9 9`; Write leaves the hash `1?b`. -/
theorem C3_letter_adjacency_invariant_witness :
    (Arg.NoCharacterRepetition ∈ demoArgs ∧ max 1 demoDigest.opts.alphabet.length ≤ 5 ∧
      digest.observe (demoDigest.Write demoEnv 5 [9, 9]) = some ("1?b".toList, 2, none)) ∧
    ∃ r, demoDigest.Write demoEnv 5 [9, 9] = some r ∧
      ∀ (i : Nat) (a b : Rune), r.1.hash[i]? = some a → r.1.hash[i + 1]? = some b →
        ¬ (a.Is Letter = true ∧ b.Is Letter = true) :=
  ⟨⟨by decide, by decide, by decide⟩,
    C3_letter_adjacency_invariant demoEnv demoArgs demoDigest [9, 9] 5 (by decide) rfl
      (by decide)⟩

set_option maxRecDepth 1000000 in
/-- C4 at a concrete input: size 3, data `1 2`; Write returns a nil error and leaves
`?1a`, of `min 3 64` runes. -/
theorem C4_size_contract_witness :
    (0 < demoDigest.opts.size ∧ max 1 demoDigest.opts.alphabet.length ≤ 5 ∧
      digest.observe (demoDigest.Write demoEnv 5 [1, 2]) = some ("?1a".toList, 2, none)) ∧
    ∃ r, demoDigest.Write demoEnv 5 [1, 2] = some r ∧
      (r.2.2 = none → (r.1.hash.length : Int) = min demoDigest.opts.size 64) :=
  ⟨⟨by decide, by decide, by decide⟩,
    C4_size_contract demoEnv demoDigest [1, 2] 5 (by decide) (by decide)⟩

set_option maxRecDepth 1000000 in
/-- C5 at a concrete input: alphabet `aA`, size 2, `Unique`; the alphabet has one character
regardless of case, and Write fails, leaving `a`. -/
theorem C5_exhaustion_failure_witness :
    (Arg.Unique ∈ demoSmallArgs ∧
      0 < (New demoEnv (demoSmallArgs.map (Arg.fn demoEnv.unicode))).opts.size ∧
      (distinctIgnoringCase demoEnv.unicode
          (New demoEnv (demoSmallArgs.map (Arg.fn demoEnv.unicode))).opts.alphabet : Int)
        < min (New demoEnv (demoSmallArgs.map (Arg.fn demoEnv.unicode))).opts.size 64 ∧
      digest.observe ((New demoEnv (demoSmallArgs.map (Arg.fn demoEnv.unicode))).Write
          demoEnv 2 [1, 2, 3])
        = some ("a".toList, 0, some Error.ErrUnreachableComplexity)) ∧
    ∃ r, (New demoEnv (demoSmallArgs.map (Arg.fn demoEnv.unicode))).Write demoEnv 2 [1, 2, 3]
        = some r ∧ r.2 = (0, some Error.ErrUnreachableComplexity) :=
  ⟨⟨by decide, by decide, by decide, by decide⟩,
    C5_exhaustion_failure demoEnv demoSmallArgs _ [1, 2, 3] 2 (by decide) rfl (by decide)
      (by decide) (by decide)⟩

set_option maxRecDepth 1000000 in
/-- C7 at a concrete input: alphabet `a1A`, size `Max`, `Unique`, data `5`; Write stops on
the exhausted alphabet after `a1` and returns `(1, nil)`. -/
theorem C7_max_never_fails_witness :
    ((New demoEnv (demoMaxArgs.map (Arg.fn demoEnv.unicode))).opts.size = Max ∧
      digest.observe ((New demoEnv (demoMaxArgs.map (Arg.fn demoEnv.unicode))).Write
          demoEnv 3 [5]) = some ("a1".toList, 1, none)) ∧
    ∃ r, (New demoEnv (demoMaxArgs.map (Arg.fn demoEnv.unicode))).Write demoEnv 3 [5] = some r ∧
      r.2 = ((([5] : List Nat).length : Int), none) ∧ r.1.hash.length ≤ 64 :=
  ⟨⟨by decide, by decide⟩,
    C7_max_never_fails demoEnv _ [5] 3 (by decide) (by decide)⟩

set_option maxRecDepth 1000000 in
/-- C8 at a concrete input: `Write(1 2)` then `Write(3)`, against `Write(1 2 3)`, which
leaves `b?C`. -/
theorem C8_writes_concatenate_witness :
    (max 1 demoDigest.opts.alphabet.length ≤ 5 ∧
      digest.observe (demoDigest.Write demoEnv 5 ([1, 2] ++ [3])) = some ("b?C".toList, 3, none)) ∧
    ∃ r1 r2 r3, demoDigest.Write demoEnv 5 [1, 2] = some r1 ∧
      r1.1.Write demoEnv 5 [3] = some r2 ∧
      demoDigest.Write demoEnv 5 ([1, 2] ++ [3]) = some r3 ∧
      r2.1.Sum [] = r3.1.Sum [] ∧ r2.2.2 = r3.2.2 :=
  ⟨⟨by decide, by decide⟩, C8_writes_concatenate demoEnv demoDigest [1, 2] [3] 5 (by decide)⟩

set_option maxRecDepth 1000000 in
/-- C9 at a concrete input: after `Write(1 2)` and `Write(3)` on the generator built from
`demoSmallArgs`, both of which fail and leave the hash `a`, Reset gives back the newly
constructed generator. -/
theorem C9_reset_restores_initial_state_witness :
    (digest.Writes demoEnv 2 (New demoEnv (demoSmallArgs.map (Arg.fn demoEnv.unicode)))
        [[1, 2], [3]]).map (fun d => d.hash.String) = some "a".toList ∧
    ∃ d, digest.Writes demoEnv 2 (New demoEnv (demoSmallArgs.map (Arg.fn demoEnv.unicode)))
        [[1, 2], [3]] = some d ∧
      d.Reset demoEnv = New demoEnv (demoSmallArgs.map (Arg.fn demoEnv.unicode)) ∧
      (d.Reset demoEnv).Sum [] = [] ∧
      ∀ (x : List Nat) (f : Nat),
        (d.Reset demoEnv).Write demoEnv f x
          = (New demoEnv (demoSmallArgs.map (Arg.fn demoEnv.unicode))).Write demoEnv f x := by
  have hsome : (digest.Writes demoEnv 2
      (New demoEnv (demoSmallArgs.map (Arg.fn demoEnv.unicode))) [[1, 2], [3]]).isSome = true := by
    decide
  obtain ⟨d, hd⟩ := Option.isSome_iff_exists.1 hsome
  exact ⟨by decide, d, hd,
    C9_reset_restores_initial_state demoEnv demoSmallArgs [[1, 2], [3]] 2 d hd⟩

/-- C10 at a concrete input: the tokens `n|_-`. -/
theorem C10_alphabet_expansion_witness :
    "n|_-".toList ≠ [] ∧
    ((Alphabet "n|_-".toList (New demoEnv []).opts).alphabet = alphabetOfTokens "n|_-".toList ∧
      (Alphabet NULS (New demoEnv []).opts).alphabet = ABC ∧
      (Alphabet "n|_-".toList (New demoEnv []).opts).alphabet = "0123456789_-".toList) :=
  ⟨by decide, C10_alphabet_expansion "n|_-".toList (New demoEnv []).opts (by decide)⟩

/-! ## Remove -/

/-- C11 (Remove).  For every sequence `s` and integer `i`: when `0 ≤ i < len(s)`, `Remove(i)`
returns true with `s` without its element at `i`, the others in their order (the
elements before `i` stay where they were, those after it move one place down, and the
length drops by one); otherwise it returns `s` itself and false. -/
theorem C11_remove (s : strings.String) (i : Int) :
    ((0 ≤ i ∧ i < s.length) →
      s.Remove i = (s.eraseIdx i.toNat, true) ∧
      (s.Remove i).1.length + 1 = s.length ∧
      (∀ k : Nat, k < i.toNat → (s.Remove i).1[k]? = s[k]?) ∧
      (∀ k : Nat, i.toNat ≤ k → (s.Remove i).1[k]? = s[k + 1]?)) ∧
    ((i < 0 ∨ (s.length : Int) ≤ i) → s.Remove i = (s, false)) := by
  constructor
  · rintro ⟨h0, h1⟩
    have hlt : i.toNat < s.length := by omega
    have heq : s.Remove i = (s.eraseIdx i.toNat, true) := by
      unfold String.Remove
      rw [if_neg (by omega), List.eraseIdx_eq_take_drop_succ]
    refine ⟨heq, ?_, ?_, ?_⟩
    · rw [heq, List.length_eraseIdx, if_pos hlt]
      omega
    · intro k hk
      rw [heq, List.getElem?_eraseIdx, if_pos hk]
    · intro k hk
      rw [heq, List.getElem?_eraseIdx, if_neg (by omega)]
  · intro h
    unfold String.Remove
    rw [if_pos (by omega)]

/-- C11 at the inputs of `TestString_Remove`: `tesit` without its element 3 is `test`;
index 10 and index -1 leave `test` as it is. -/
theorem C11_remove_witness :
    (strings.New asciiUnicode "tesit".toList).Remove 3
        = (strings.New asciiUnicode "test".toList, true) ∧
    (strings.New asciiUnicode "test".toList).Remove 10
        = (strings.New asciiUnicode "test".toList, false) ∧
    (strings.New asciiUnicode "test".toList).Remove (-1)
        = (strings.New asciiUnicode "test".toList, false) ∧
    (((0 : Int) ≤ 3 ∧ (3 : Int) < (strings.New asciiUnicode "tesit".toList).length) →
      (strings.New asciiUnicode "tesit".toList).Remove 3
        = ((strings.New asciiUnicode "tesit".toList).eraseIdx (3 : Int).toNat, true)) :=
  ⟨by decide, by decide, by decide,
    fun h => ((C11_remove (strings.New asciiUnicode "tesit".toList) 3).1 h).1⟩

/-! ## The hash is made of runes of the alphabet -/

/-- C20 (the output is drawn from the alphabet).  For any generator `d`, whatever its
alphabet, size and rules, any data and any `fuel` of at least `max 1 (len alphabet)`:
Write returns, and every rune of the hash it leaves, however it ended, is an element of
`strings.New(alphabet)`. -/
theorem C20_output_within_alphabet (E : Env) (d : digest) (data : List Nat) (fuel : Nat)
    (hf : max 1 d.opts.alphabet.length ≤ fuel) :
    ∃ r, d.Write E fuel data = some r ∧
      ∀ (i : Nat) (a : Rune), r.1.hash[i]? = some a →
        a ∈ strings.New E.unicode d.opts.alphabet := by
  obtain ⟨r, hr⟩ := Write_terminates E fuel d data hf
  refine ⟨r, hr, ?_⟩
  intro i a ha
  exact Write_mem E fuel d data r hr a (List.getElem?_mem ha)

set_option maxRecDepth 1000000 in
/-- C20 at a concrete input: the generator of `demoArgs`, data `1 2 3`, hash `b?C`. -/
theorem C20_output_within_alphabet_witness :
    (max 1 demoDigest.opts.alphabet.length ≤ 5 ∧
      digest.observe (demoDigest.Write demoEnv 5 [1, 2, 3]) = some ("b?C".toList, 3, none)) ∧
    ∃ r, demoDigest.Write demoEnv 5 [1, 2, 3] = some r ∧
      ∀ (i : Nat) (a : Rune), r.1.hash[i]? = some a →
        a ∈ strings.New demoEnv.unicode demoDigest.opts.alphabet :=
  ⟨⟨by decide, by decide⟩,
    C20_output_within_alphabet demoEnv demoDigest [1, 2, 3] 5 (by decide)⟩

/-! ## Each rule as a decorator, and their composition -/

theorem unique_iff (U : Unicode) (v : complexity) (h : strings.String) (r : Rune) :
    unique U v h r = none ↔ uniqueCheck U h r = true ∧ v h r = none := by
  unfold unique uniqueCheck
  by_cases hany : h.any (fun c => c.Same U r) = true
  · rw [if_pos hany, hany]
    constructor
    · intro hc; cases hc
    · rintro ⟨hc, _⟩; cases hc
  · rw [if_neg hany]
    rw [Bool.not_eq_true] at hany
    rw [hany]
    exact ⟨fun hv => ⟨rfl, hv⟩, fun hv => hv.2⟩

theorem noTypeRepetition_iff (v : complexity) (h : strings.String) (r : Rune) (hne : h ≠ []) :
    noTypeRepetition v h r = none ↔ typeCheck h r = true ∧ v h r = none := by
  rcases snoc_cases h with rfl | ⟨l, x, rfl⟩
  · exact absurd rfl hne
  · rw [noTypeRepetition_concat]
    unfold typeCheck
    rw [List.getLast?_concat]
    show _ ↔ (!x.OfType r) = true ∧ _
    cases x.OfType r
    · exact ⟨fun hv => ⟨rfl, hv⟩, fun hv => hv.2⟩
    · constructor
      · intro hc; cases hc
      · rintro ⟨hc, _⟩; cases hc

theorem noCharacterRepetition_iff (v : complexity) (h : strings.String) (r : Rune)
    (hne : h ≠ []) :
    noCharacterRepetition v h r = none ↔ characterCheck h r = true ∧ v h r = none := by
  rcases snoc_cases h with rfl | ⟨l, x, rfl⟩
  · exact absurd rfl hne
  · rw [noCharacterRepetition_concat]
    unfold characterCheck
    rw [List.getLast?_concat]
    show _ ↔ (!(x.Is Letter && r.Is Letter)) = true ∧ _
    cases (x.Is Letter && r.Is Letter)
    · exact ⟨fun hv => ⟨rfl, hv⟩, fun hv => hv.2⟩
    · constructor
      · intro hc; cases hc
      · rintro ⟨hc, _⟩; cases hc

theorem Alphabet_complex (tokens : List Char) (o : Options) :
    (Alphabet tokens o).complex = o.complex := by
  unfold Alphabet
  split
  · rfl
  · have hf : ∀ (l : List Char) (o1 : Options),
        (l.foldl (fun o t => match vocabulary t with
          | none => o
          | some s => { o with alphabet := o.alphabet ++ s }) o1).complex = o1.complex := by
      intro l
      induction l with
      | nil => intro o1; rfl
      | cons t l ih =>
        intro o1
        rw [List.foldl_cons, ih]
        cases vocabulary t <;> rfl
    simp only []
    split <;> simp [hf]

theorem Size_complex (size : Int) (o : Options) : (Size size o).complex = o.complex := by
  unfold Size
  split <;> rfl

/-- One option, applied to options whose complexity accepts everything on the empty
hash: the new complexity accepts exactly what the old one accepts and the check of the
option passes, and it still accepts everything on the empty hash. -/
theorem fn_iff (U : Unicode) (a : Arg) (o : Options) (h0 : ∀ r, o.complex [] r = none) :
    (∀ h r, (a.fn U o).complex h r = none ↔ o.complex h r = none ∧ a.check U h r = true) ∧
    (∀ r, (a.fn U o).complex [] r = none) := by
  cases a with
  | Alphabet tokens =>
    have hc : (Arg.fn U (Arg.Alphabet tokens) o).complex = o.complex := Alphabet_complex tokens o
    rw [hc]
    exact ⟨fun h r => ⟨fun hv => ⟨hv, rfl⟩, fun hv => hv.1⟩, h0⟩
  | Size size =>
    have hc : (Arg.fn U (Arg.Size size) o).complex = o.complex := Size_complex size o
    rw [hc]
    exact ⟨fun h r => ⟨fun hv => ⟨hv, rfl⟩, fun hv => hv.1⟩, h0⟩
  | Unique =>
    have hc : (Arg.fn U Arg.Unique o).complex = unique U o.complex := rfl
    rw [hc]
    refine ⟨fun h r => ?_, fun r => ?_⟩
    · rw [unique_iff]
      exact And.comm
    · rw [unique_iff]
      exact ⟨rfl, h0 r⟩
  | NoTypeRepetition =>
    have hc : (Arg.fn U Arg.NoTypeRepetition o).complex = noTypeRepetition o.complex := rfl
    rw [hc]
    refine ⟨fun h r => ?_, fun r => noTypeRepetition_nil _ r⟩
    by_cases hne : h = []
    · subst hne
      rw [noTypeRepetition_nil]
      exact ⟨fun _ => ⟨h0 r, rfl⟩, fun _ => rfl⟩
    · rw [noTypeRepetition_iff _ h r hne]
      exact And.comm
  | NoCharacterRepetition =>
    have hc : (Arg.fn U Arg.NoCharacterRepetition o).complex
        = noCharacterRepetition o.complex := rfl
    rw [hc]
    refine ⟨fun h r => ?_, fun r => noCharacterRepetition_nil _ r⟩
    by_cases hne : h = []
    · subst hne
      rw [noCharacterRepetition_nil]
      exact ⟨fun _ => ⟨h0 r, rfl⟩, fun _ => rfl⟩
    · rw [noCharacterRepetition_iff _ h r hne]
      exact And.comm

theorem foldl_iff (U : Unicode) (args : List Arg) :
    ∀ (o : Options), (∀ r, o.complex [] r = none) → ∀ h r,
      (((args.map (Arg.fn U)).foldl (fun o opt => opt o) o).complex h r = none ↔
        o.complex h r = none ∧ ∀ a ∈ args, a.check U h r = true) := by
  induction args with
  | nil =>
    intro o _ h r
    simp
  | cons a args ih =>
    intro o h0 h r
    rw [List.map_cons, List.foldl_cons]
    have ha := fn_iff U a o h0
    rw [ih (a.fn U o) ha.2 h r, ha.1 h r]
    simp only [List.mem_cons, forall_eq_or_imp]
    tauto

/-- C14 (the composed policy is the conjunction of the registered rules).  For every list
of options passed to `New`, in any order and with any repetitions, every hash so far
`h` and every candidate `r`: the composed policy accepts `(h, r)` if and only if the check
of each registered rule holds on `(h, r)` (`Unique`: no rune of `h` is the same as `r`;
`NoTypeRepetition`: `h` is empty or its last rune and `r` have different types;
`NoCharacterRepetition`: `h` is empty or its last rune and `r` are not both letters;
`Alphabet` and `Size` register no rule).  Hence acceptance is the same for any
reordering of the options. -/
theorem C14_policy_is_conjunction (E : Env) (args : List Arg) (h : strings.String) (r : Rune) :
    ((New E (args.map (Arg.fn E.unicode))).opts.complex h r = none ↔
      ∀ a ∈ args, a.check E.unicode h r = true) ∧
    ∀ args2 : List Arg, args.Perm args2 →
      ((New E (args2.map (Arg.fn E.unicode))).opts.complex h r = none ↔
        (New E (args.map (Arg.fn E.unicode))).opts.complex h r = none) := by
  have hmain : ∀ l : List Arg, ((New E (l.map (Arg.fn E.unicode))).opts.complex h r = none ↔
      ∀ a ∈ l, a.check E.unicode h r = true) := by
    intro l
    rw [New_opts, foldl_iff E.unicode l _ (fun _ => rfl) h r]
    exact ⟨fun hv => hv.2, fun hv => ⟨rfl, hv⟩⟩
  refine ⟨hmain args, ?_⟩
  intro args2 hp
  rw [hmain args, hmain args2]
  exact ⟨fun hv a ha => hv a (hp.mem_iff.1 ha), fun hv a ha => hv a (hp.mem_iff.2 ha)⟩

/-- C15 (each rule as a decorator), at an input where the claim fails: around an inner
policy that rejects everything, `noTypeRepetition` accepts the rune `a` on the empty hash,
where its own check passes but the inner policy does not accept. -/
theorem C15_counterexample :
    ¬ (noTypeRepetition (fun _ _ => some Error.ErrUnreachableComplexity) []
          (NewRune asciiUnicode 'a') = none ↔
        typeCheck [] (NewRune asciiUnicode 'a') = true ∧
          (fun (_ : strings.String) (_ : Rune) => some Error.ErrUnreachableComplexity) []
            (NewRune asciiUnicode 'a') = none) := by
  intro hiff
  have h := (hiff.1 (noTypeRepetition_nil _ _)).2
  cases h

/-- C15, amended.  For every inner policy `v`, hash so far `h` and candidate `r`:
`unique(v)` accepts `(h, r)` if and only if its own check passes and `v` accepts `(h, r)`;
`noTypeRepetition(v)` and `noCharacterRepetition(v)` do so whenever `h` is not empty, and
on the empty hash they accept every candidate without asking `v`. -/
theorem C15_rules_are_decorators (U : Unicode) (v : complexity) (h : strings.String)
    (r : Rune) :
    (unique U v h r = none ↔ uniqueCheck U h r = true ∧ v h r = none) ∧
    (h ≠ [] →
      (noTypeRepetition v h r = none ↔ typeCheck h r = true ∧ v h r = none) ∧
      (noCharacterRepetition v h r = none ↔ characterCheck h r = true ∧ v h r = none)) ∧
    noTypeRepetition v [] r = none ∧ noCharacterRepetition v [] r = none :=
  ⟨unique_iff U v h r,
    fun hne => ⟨noTypeRepetition_iff v h r hne, noCharacterRepetition_iff v h r hne⟩,
    noTypeRepetition_nil v r, noCharacterRepetition_nil v r⟩

/-! ## Size and the length of Sum -/

theorem utf8Size_of_lt_128 (c : Char) (h : c.toNat < 128) : c.utf8Size = 1 := by
  unfold Char.utf8Size
  have hv : c.val ≤ UInt32.ofNatCore 127 (by decide) := by
    show c.val.toNat ≤ 127
    have : c.val.toNat = c.toNat := rfl
    omega
  rw [if_pos hv]

theorem Bytes_length (s : strings.String) (h : ∀ x ∈ s, x.rune.toNat < 128) :
    s.Bytes.length = s.length := by
  induction s with
  | nil => rfl
  | cons x s ih =>
    have hx := utf8Size_of_lt_128 x.rune (h x (List.mem_cons_self _ _))
    have hs := ih (fun y hy => h y (List.mem_cons_of_mem _ hy))
    unfold String.Bytes String.String at hs ⊢
    simp only [List.map_cons, List.flatMap_cons, List.length_append, List.length_map,
      String.length_utf8EncodeChar, hx, hs, List.length_cons]
    omega

theorem New_rune_mem (U : Unicode) (alphabet : List Char) (x : Rune)
    (hx : x ∈ strings.New U alphabet) : x.rune ∈ alphabet := by
  unfold strings.New at hx
  rw [List.mem_map] at hx
  obtain ⟨c, hc, rfl⟩ := hx
  exact hc

/-- With an alphabet of single-byte characters `Sum(nil)` has one byte for each rune of
the hash. -/
theorem Sum_length (E : Env) (fuel : Nat) (d : digest) (data : List Nat)
    (hascii : ∀ c ∈ d.opts.alphabet, c.toNat < 128)
    (r : digest × Int × Option Error) (hw : d.Write E fuel data = some r) :
    (r.1.Sum []).length = r.1.hash.length := by
  unfold digest.Sum
  rw [List.nil_append]
  exact Bytes_length _ (fun x hx =>
    hascii _ (New_rune_mem E.unicode _ x (Write_mem E fuel d data r hw x hx)))

/-- For a size from 1 to 64 and an alphabet of single-byte characters, after a successful
Write the length of `Sum(nil)` is `Size()`. -/
theorem Size_eq_Sum_length_upto_64 (E : Env) (fuel : Nat) (d : digest) (data : List Nat)
    (hn : 0 < d.opts.size) (hle : d.opts.size ≤ 64)
    (hascii : ∀ c ∈ d.opts.alphabet, c.toNat < 128)
    (r : digest × Int × Option Error) (hw : d.Write E fuel data = some r)
    (herr : r.2.2 = none) : ((r.1.Sum []).length : Int) = r.1.Size := by
  have hmax : d.opts.size ≠ Max := by
    unfold Max
    omega
  rw [Sum_length E fuel d data hascii r hw]
  unfold digest.Size
  rw [(Write_state E fuel d data r hw).1, if_pos hn]
  rcases Write_result E fuel d data r hw with ⟨_, _, h⟩ | ⟨h, _, _⟩
  · rw [h hmax, picks_length, if_neg hmax]
    split <;> omega
  · rw [h] at herr
    cases herr

theorem attempts_first_accepted (E : Env) (c : complexity) (hash : strings.String)
    (fuel : Nat) (src : strings.String) (p a e : Int) (hlen : 2 ≤ src.length)
    (hc : c hash (pick src (sin E (p + a) (src.Len - 1))).2 = none) :
    digest.Write.attempts E c hash (fuel + 1) src p a e =
      some (.accepted (e + sin E (p + a) (src.Len - 1))
        (pick src (sin E (p + a) (src.Len - 1))).2) := by
  rw [attempts_succ]
  have hne : src ≠ [] := by
    intro h
    rw [h] at hlen
    simp at hlen
  have hi := sin_index E (p + a) src hne
  have hl := pick_length src _ hi.1 hi.2
  have hempty : (pick src (sin E (p + a) (src.Len - 1))).1.Empty = false := by
    unfold String.Empty
    simp only [beq_eq_false_iff_ne, ne_eq]
    omega
  rw [hempty, hc]
  rfl

theorem loop_all_accepted (E : Env) (c : complexity) (hc : ∀ h r, c h r = none)
    (sum fuel : Nat) (picks : List Int) :
    ∀ (abc : strings.String) (rnd : Nat) (hash : strings.String) (e : Int),
      2 ≤ abc.length →
      ∃ out, digest.Write.loop E c sum (fuel + 1) picks abc rnd hash e = some out ∧
        out.2.2 = false := by
  induction picks with
  | nil =>
    intro abc rnd hash e _
    exact ⟨_, rfl, rfl⟩
  | cons p picks ih =>
    intro abc rnd hash e hlen
    rw [loop_cons, attempts_first_accepted E c hash fuel _ p 0 e
      (by rw [Shuffle_copy, Shuffle_length]; exact hlen) (hc _ _)]
    exact ih _ _ _ _ (by rw [Shuffle_length]; exact hlen)

/-- C12 (Size is the length of Sum), at an input where the code departs from it.  With
`Size(65)`, the default alphabet and no rule, every Write, on any data and with any number
`fuel + 1` of attempts allowed, succeeds and leaves a `Sum(nil)` of 64 bytes, while
`Size()` is 65. -/
theorem C12_size_exceeds_sum_length (E : Env) (data : List Nat) (fuel : Nat) :
    ∃ r, (New E ([Arg.Size 65].map (Arg.fn E.unicode))).Write E (fuel + 1) data = some r ∧
      r.2.2 = none ∧ (r.1.Sum []).length = 64 ∧ r.1.Size = 65 := by
  have hopts : (New E ([Arg.Size 65].map (Arg.fn E.unicode))).opts
      = { size := 65, alphabet := ABC, complex := fun _ _ => none } := rfl
  obtain ⟨out, hout, hstop⟩ := loop_all_accepted E
    (New E ([Arg.Size 65].map (Arg.fn E.unicode))).opts.complex (by rw [hopts]; intro h r; rfl)
    (((New E ([Arg.Size 65].map (Arg.fn E.unicode))).Hash64.Write data).1.Sum64 E) fuel
    (digest.Write.picks E (New E ([Arg.Size 65].map (Arg.fn E.unicode))) data)
    (strings.New E.unicode (New E ([Arg.Size 65].map (Arg.fn E.unicode))).opts.alphabet)
    (New E ([Arg.Size 65].map (Arg.fn E.unicode))).rnd [] 0
    (by
      rw [hopts]
      simp only [strings.New, List.length_map]
      decide)
  have hw := Write_def E (fuel + 1) (New E ([Arg.Size 65].map (Arg.fn E.unicode))) data
  rw [hout] at hw
  simp only [Option.map_some', hstop, Bool.false_eq_true, if_false] at hw
  refine ⟨_, hw, rfl, ?_, ?_⟩
  · rw [Sum_length E (fuel + 1) _ data (by rw [hopts]; decide) _ hw]
    have hlen := (loop_length E _ _ _ _ _ _ _ _ out hout).1 hstop
    rw [picks_length] at hlen
    simp only [List.length_nil, Nat.zero_add] at hlen
    rw [hopts] at hlen
    exact hlen
  · rfl

/-! ## What a failed Write leaves -/

set_option maxRecDepth 1000000 in
/-- C13 (a failed Write and the previous output), at an input where the claim fails: on the
newly constructed generator with alphabet `aa`, size 2 and `Unique`, `Sum(nil)` is empty;
Write of the byte `1` accepts one `a`, finds no second rune, and returns
`ErrUnreachableComplexity`; afterwards `Sum(nil)` is the byte of `a`. -/
theorem C13_counterexample :
    ∃ r, (New demoEnv (demoTwinArgs.map (Arg.fn demoEnv.unicode))).Write demoEnv 2 [1] = some r ∧
      r.2.2 = some Error.ErrUnreachableComplexity ∧
      r.1.Sum [] = [97] ∧
      (New demoEnv (demoTwinArgs.map (Arg.fn demoEnv.unicode))).Sum [] = [] ∧
      r.1.Sum [] ≠ (New demoEnv (demoTwinArgs.map (Arg.fn demoEnv.unicode))).Sum [] := by
  have h : ((New demoEnv (demoTwinArgs.map (Arg.fn demoEnv.unicode))).Write demoEnv 2 [1]).map
      (fun r => (r.2.2, r.1.Sum [])) = some (some Error.ErrUnreachableComplexity, [97]) := by
    decide
  cases hw : (New demoEnv (demoTwinArgs.map (Arg.fn demoEnv.unicode))).Write demoEnv 2 [1] with
  | none =>
    rw [hw] at h
    cases h
  | some r =>
    rw [hw] at h
    simp only [Option.map_some', Option.some.injEq, Prod.mk.injEq] at h
    refine ⟨r, rfl, h.1, h.2, rfl, ?_⟩
    rw [h.2]
    decide

/-- C13, amended.  For any generator `d`, any data and any `fuel` of at least
`max 1 (len alphabet)`: Write returns, and what it returns and the `Sum(nil)` it leaves
are the same whatever hash `h0` the generator held before the call, which Write discards;
and if it returns `ErrUnreachableComplexity` the size is positive and the hash left
holds fewer than `min size 64` runes, those accepted before the failure. -/
theorem C13_failed_write_replaces_output (E : Env) (d : digest) (h0 : strings.String)
    (data : List Nat) (fuel : Nat) (hf : max 1 d.opts.alphabet.length ≤ fuel) :
    ∃ r r0, d.Write E fuel data = some r ∧
      ({ d with hash := h0 }).Write E fuel data = some r0 ∧
      r0.1.Sum [] = r.1.Sum [] ∧ r0.2 = r.2 ∧
      (r.2.2 = some Error.ErrUnreachableComplexity →
        0 < d.opts.size ∧ (r.1.hash.length : Int) < min d.opts.size 64) := by
  obtain ⟨r, hr⟩ := Write_terminates E fuel d data hf
  obtain ⟨r0, hr0⟩ := Write_terminates E fuel { d with hash := h0 } data hf
  refine ⟨r, r0, hr, hr0, ?_⟩
  have hc := Write_congr E fuel { d with hash := h0 } d data data rfl rfl
  rw [hr, hr0] at hc
  simp only [Option.map_some', Option.some.injEq, Prod.mk.injEq] at hc
  have hres := Write_result E fuel d data r hr
  have hres0 := Write_result E fuel { d with hash := h0 } data r0 hr0
  refine ⟨?_, ?_, ?_⟩
  · unfold digest.Sum
    rw [hc.1]
  · rcases hres with ⟨h1, _⟩ | ⟨h1, _⟩ <;> rcases hres0 with ⟨h2, _⟩ | ⟨h2, _⟩
    · rw [h1, h2]
    · have := hc.2
      rw [h1, h2] at this
      cases this
    · have := hc.2
      rw [h1, h2] at this
      cases this
    · rw [h1, h2]
  · intro herr
    rcases hres with ⟨h1, _⟩ | ⟨_, hmax, hlt⟩
    · rw [h1] at herr
      cases herr
    · rw [picks_length, if_neg hmax] at hlt
      unfold Max at hmax
      have hopts := Write_state E fuel d data r hr
      by_cases hneg : d.opts.size < 0
      · exfalso
        rw [if_pos (by omega)] at hlt
        omega
      · split at hlt <;> omega

set_option maxRecDepth 1000000 in
/-- C13, amended, at a concrete input: the generator of `demoTwinArgs` holding the hash `b`
from nowhere, and fresh; Write of the byte `1` fails and leaves `a` in both. -/
theorem C13_failed_write_replaces_output_witness :
    (max 1 (New demoEnv (demoTwinArgs.map (Arg.fn demoEnv.unicode))).opts.alphabet.length ≤ 2 ∧
      digest.observe ((New demoEnv (demoTwinArgs.map (Arg.fn demoEnv.unicode))).Write demoEnv 2 [1])
        = some ("a".toList, 0, some Error.ErrUnreachableComplexity)) ∧
    ∃ r r0, (New demoEnv (demoTwinArgs.map (Arg.fn demoEnv.unicode))).Write demoEnv 2 [1] = some r ∧
      ({ New demoEnv (demoTwinArgs.map (Arg.fn demoEnv.unicode)) with
          hash := strings.New asciiUnicode "b".toList }).Write demoEnv 2 [1] = some r0 ∧
      r0.1.Sum [] = r.1.Sum [] ∧ r0.2 = r.2 ∧
      (r.2.2 = some Error.ErrUnreachableComplexity →
        0 < (New demoEnv (demoTwinArgs.map (Arg.fn demoEnv.unicode))).opts.size ∧
        (r.1.hash.length : Int)
          < min (New demoEnv (demoTwinArgs.map (Arg.fn demoEnv.unicode))).opts.size 64) :=
  ⟨⟨by decide, by decide⟩,
    C13_failed_write_replaces_output demoEnv _ (strings.New asciiUnicode "b".toList) [1] 2
      (by decide)⟩

/-! ## Shuffle rearranges -/

theorem swap_perm (s : strings.String) (i j : Nat) : (s.swap i j).Perm s := by
  unfold String.swap
  split
  · rename_i a b ha hb
    obtain ⟨hi, rfl⟩ := List.getElem?_eq_some.1 ha
    obtain ⟨hj, rfl⟩ := List.getElem?_eq_some.1 hb
    rw [List.perm_iff_count]
    intro x
    have hj2 : j < (s.set i s[j]).length := by rw [List.length_set]; exact hj
    rw [List.count_set _ _ _ _ hj2, List.count_set _ _ _ _ hi]
    have hget : (s.set i s[j])[j] = s[j] := by
      rw [List.getElem_set]
      split
      · rfl
      · rfl
    rw [hget]
    have hpos : (if s[i] == x then 1 else 0) ≤ s.count x := by
      split
      · rename_i heq
        have : s[i] = x := by simpa using heq
        rw [← this]
        exact List.count_pos_iff.2 (List.getElem_mem hi)
      · exact Nat.zero_le _
    omega
  · exact List.Perm.refl _

theorem swaps_perm (ps : List (Nat × Nat)) (s : strings.String) :
    (ps.foldl (fun s p => String.swap s p.1 p.2) s).Perm s := by
  induction ps generalizing s with
  | nil => exact List.Perm.refl _
  | cons p ps ih =>
    rw [List.foldl_cons]
    exact (ih _).trans (swap_perm s p.1 p.2)

theorem Shuffle_perm (E : Env) (s : strings.String) (rnd : Nat) :
    (s.Shuffle E rnd).1.Perm s :=
  swaps_perm _ s
/-! ## The indices the attempt loop tries -/

theorem tried_succ (E : Env) (c : complexity) (hash : strings.String) (fuel : Nat)
    (src : strings.String) (p a : Int) :
    digest.Write.tried E c hash (fuel + 1) src p a =
      if (pick src (sin E (p + a) (src.Len - 1))).1.Empty then [sin E (p + a) (src.Len - 1)]
      else
        match c hash (pick src (sin E (p + a) (src.Len - 1))).2 with
        | none => [sin E (p + a) (src.Len - 1)]
        | some _ => sin E (p + a) (src.Len - 1) ::
            digest.Write.tried E c hash fuel
              (pick src (sin E (p + a) (src.Len - 1))).1 (sin E (p + a) (src.Len - 1)) (a + 1) := by
  rfl

/-- When the attempt loop goes on after an attempt, the working alphabet was not empty and
has lost exactly one rune. -/
theorem pick_shrinks (E : Env) (x : Int) (src : strings.String)
    (hne : (pick src (sin E x (src.Len - 1))).1.Empty = false) :
    src ≠ [] ∧ (pick src (sin E x (src.Len - 1))).1.length + 1 = src.length ∧
      1 ≤ (pick src (sin E x (src.Len - 1))).1.length := by
  have hsrc : src ≠ [] := by
    rintro rfl
    rw [pick_nil] at hne
    cases hne
  have hi := sin_index E x src hsrc
  refine ⟨hsrc, pick_length src _ hi.1 hi.2, ?_⟩
  unfold String.Empty at hne
  simp only [beq_eq_false_iff_ne, ne_eq] at hne
  omega

theorem tried_length_le (E : Env) (c : complexity) (hash : strings.String) (fuel : Nat) :
    ∀ (src : strings.String) (p a : Int),
      (digest.Write.tried E c hash fuel src p a).length ≤ max 1 src.length := by
  induction fuel with
  | zero =>
    intro src p a
    simp [digest.Write.tried]
  | succ n ih =>
    intro src p a
    rw [tried_succ]
    split
    · simp
    · rename_i hne
      have hs := pick_shrinks E (p + a) src (by simpa using hne)
      split
      · simp
      · have := ih (pick src (sin E (p + a) (src.Len - 1))).1 (sin E (p + a) (src.Len - 1)) (a + 1)
        rw [List.length_cons]
        omega

/-- The attempt loop needs as many iterations as it tries indices, and the entropy it
ends with is the entropy it started from plus the indices tried. -/
theorem attempts_tried (E : Env) (c : complexity) (hash : strings.String) (fuel : Nat) :
    ∀ (src : strings.String) (p a e : Int) (r : Attempt),
      digest.Write.attempts E c hash fuel src p a e = some r →
        digest.Write.attempts E c hash (digest.Write.tried E c hash fuel src p a).length
          src p a e = some r ∧
        r.entropy = e + (digest.Write.tried E c hash fuel src p a).sum := by
  induction fuel with
  | zero =>
    intro src p a e r h
    simp [digest.Write.attempts] at h
  | succ n ih =>
    intro src p a e r h
    rw [attempts_succ] at h
    rw [tried_succ]
    split
    · rename_i hemp
      rw [if_pos hemp] at h
      simp only [Option.some.injEq] at h
      subst h
      refine ⟨?_, by simp [Attempt.entropy]⟩
      rw [List.length_singleton, attempts_succ, if_pos hemp]
    · rename_i hemp
      rw [if_neg hemp] at h
      split
      · rename_i hacc
        rw [hacc] at h
        simp only [Option.some.injEq] at h
        subst h
        refine ⟨?_, by simp [Attempt.entropy]⟩
        rw [List.length_singleton, attempts_succ, if_neg hemp, hacc]
      · rename_i err hrej
        rw [hrej] at h
        simp only at h
        have := ih _ _ _ _ r h
        refine ⟨?_, ?_⟩
        · rw [List.length_cons, attempts_succ, if_neg hemp, hrej]
          exact this.1
        · rw [this.2, List.sum_cons]
          omega

theorem tried_zero (E : Env) (c : complexity) (hash : strings.String) (fuel : Nat)
    (src : strings.String) (p a : Int) :
    (digest.Write.tried E c hash (fuel + 1) src p a)[0]? = some (sin E (p + a) (src.Len - 1)) := by
  rw [tried_succ]
  split
  · rfl
  · split <;> simp

/-- From one attempt to the next the index tried is fed back: the index on the attempt
after the one that tried `i` is `sin(i + attempt, len(src) - 1)` for the attempt number
and the working alphabet of that attempt, which has lost one rune for each earlier
attempt. -/
theorem tried_next (E : Env) (c : complexity) (hash : strings.String) (fuel : Nat) :
    ∀ (src : strings.String) (p a : Int) (k : Nat) (i j : Int),
      (digest.Write.tried E c hash fuel src p a)[k]? = some i →
      (digest.Write.tried E c hash fuel src p a)[k + 1]? = some j →
        j = sin E (i + (a + ((k : Int) + 1))) (src.Len - ((k : Int) + 1) - 1) := by
  induction fuel with
  | zero =>
    intro src p a k i j hi _
    simp [digest.Write.tried] at hi
  | succ n ih =>
    intro src p a k i j hi hj
    rw [tried_succ] at hi hj
    split at hj
    · simp at hj
    · rename_i hemp
      rw [if_neg hemp] at hi
      have hs := pick_shrinks E (p + a) src (by simpa using hemp)
      split at hj
      · simp at hj
      · rename_i err hrej
        rw [hrej] at hi
        simp only [List.getElem?_cons_succ] at hj
        have hlen : (pick src (sin E (p + a) (src.Len - 1))).1.Len = src.Len - 1 := by
          show ((pick src (sin E (p + a) (src.Len - 1))).1.length : Int) = (src.length : Int) - 1
          have h2 := hs.2.1
          omega
        cases k with
        | zero =>
          simp only [List.getElem?_cons_zero, Option.some.injEq] at hi
          subst hi
          cases n with
          | zero => simp [digest.Write.tried] at hj
          | succ m =>
            rw [tried_zero, hlen] at hj
            simp only [Option.some.injEq] at hj
            rw [← hj]
            simp
        | succ k =>
          simp only [List.getElem?_cons_succ] at hi
          have := ih _ _ _ k i j hi hj
          rw [this, hlen]
          congr 1
          · push_cast
            omega
          · push_cast
            omega

/-! ## The steps of a Write -/

theorem steps_cons (E : Env) (c : complexity) (sum fuel : Nat) (p : Int) (picks : List Int)
    (abc hash : strings.String) (e : Int) :
    digest.Write.steps E c sum fuel (p :: picks) abc hash e =
      { p := p, seed := int64 (int64 sum + int64 p + int64 e), master := abc,
        src := (abc.Shuffle E (E.randSeed (int64 (int64 sum + int64 p + int64 e)))).2.1,
        tried := digest.Write.tried E c hash fuel
          (abc.Shuffle E (E.randSeed (int64 (int64 sum + int64 p + int64 e)))).2.1 p 0 } ::
        match digest.Write.attempts E c hash fuel
            (abc.Shuffle E (E.randSeed (int64 (int64 sum + int64 p + int64 e)))).2.1 p 0 e with
        | some (.accepted e1 next) =>
          digest.Write.steps E c sum fuel picks
            (abc.Shuffle E (E.randSeed (int64 (int64 sum + int64 p + int64 e)))).1
            (hash ++ [next]) e1
        | _ => [] := by
  rfl

/-- The steps are those of the loop: one for each rune appended, and one more when the
loop is left on an exhausted alphabet. -/
theorem steps_length (E : Env) (c : complexity) (sum fuel : Nat) (picks : List Int) :
    ∀ (abc : strings.String) (rnd : Nat) (hash : strings.String) (e : Int)
      (out : Nat × strings.String × Bool),
      digest.Write.loop E c sum fuel picks abc rnd hash e = some out →
        (digest.Write.steps E c sum fuel picks abc hash e).length + hash.length
          = out.2.1.length + (if out.2.2 = true then 1 else 0) := by
  induction picks with
  | nil =>
    intro abc rnd hash e out h
    simp only [digest.Write.loop, Option.some.injEq] at h
    subst h
    simp [digest.Write.steps]
  | cons p picks ih =>
    intro abc rnd hash e out h
    rw [loop_cons] at h
    rw [steps_cons]
    split at h
    · cases h
    · rename_i heq
      simp only [Option.some.injEq] at h
      subst h
      rw [heq]
      simp only [List.length_cons, List.length_nil, if_true]
      omega
    · rename_i e1 next heq
      rw [heq]
      have := ih _ _ _ _ out h
      simp only [List.length_cons, List.length_append, List.length_singleton,
        List.length_nil] at this ⊢
      omega

/-- Every step shuffles the master alphabet it finds, under its own seed; its working
alphabet is what that leaves in the master alphabet, a rearrangement of the alphabet the
loop started from; and its indices are those of an attempt loop on it from the byte. -/
theorem steps_spec (E : Env) (c : complexity) (sum fuel : Nat) (picks : List Int) :
    ∀ (abc hash : strings.String) (e : Int),
      ∀ t ∈ digest.Write.steps E c sum fuel picks abc hash e,
        t.src = (t.master.Shuffle E (E.randSeed t.seed)).2.1 ∧
        t.src = (t.master.Shuffle E (E.randSeed t.seed)).1 ∧
        t.master.Perm abc ∧ t.src.Perm abc ∧
        ∃ h1, t.tried = digest.Write.tried E c h1 fuel t.src t.p 0 := by
  induction picks with
  | nil =>
    intro abc hash e t ht
    simp [digest.Write.steps] at ht
  | cons p picks ih =>
    intro abc hash e t ht
    rw [steps_cons] at ht
    rcases List.mem_cons.1 ht with rfl | ht
    · exact ⟨rfl, rfl, List.Perm.refl _, Shuffle_perm E abc _, hash, rfl⟩
    · split at ht
      · have := ih _ _ _ t ht
        have hp := Shuffle_perm E abc (E.randSeed (int64 (int64 sum + int64 p + int64 e)))
        exact ⟨this.1, this.2.1, this.2.2.1.trans hp, this.2.2.2.1.trans hp, this.2.2.2.2⟩
      · cases ht

theorem steps_zero (E : Env) (c : complexity) (sum fuel : Nat) (picks : List Int)
    (abc hash : strings.String) (e : Int) (t : Step)
    (ht : (digest.Write.steps E c sum fuel picks abc hash e)[0]? = some t) :
    t.master = abc ∧ ∃ p rest, picks = p :: rest ∧ t.p = p := by
  cases picks with
  | nil => simp [digest.Write.steps] at ht
  | cons p picks =>
    rw [steps_cons] at ht
    simp only [List.getElem?_cons_zero, Option.some.injEq] at ht
    subst ht
    exact ⟨rfl, p, picks, rfl, rfl⟩

/-- The master alphabet a step finds is the working alphabet of the step before it. -/
theorem steps_next (E : Env) (c : complexity) (sum fuel : Nat) (picks : List Int) :
    ∀ (abc hash : strings.String) (e : Int) (k : Nat) (t t1 : Step),
      (digest.Write.steps E c sum fuel picks abc hash e)[k]? = some t →
      (digest.Write.steps E c sum fuel picks abc hash e)[k + 1]? = some t1 →
        t1.master = t.src := by
  induction picks with
  | nil =>
    intro abc hash e k t t1 ht
    simp [digest.Write.steps] at ht
  | cons p picks ih =>
    intro abc hash e k t t1 ht ht1
    rw [steps_cons] at ht ht1
    simp only [List.getElem?_cons_succ] at ht1
    split at ht1
    · rename_i e1 next heq
      rw [heq] at ht
      cases k with
      | zero =>
        simp only [List.getElem?_cons_zero, Option.some.injEq] at ht
        subst ht
        exact (steps_zero E c sum fuel picks _ _ _ t1 ht1).1
      | succ k =>
        simp only [List.getElem?_cons_succ] at ht
        exact ih _ _ _ k t t1 ht ht1
    · simp at ht1

/-- The bytes of the steps are the picks, in order. -/
theorem steps_p (E : Env) (c : complexity) (sum fuel : Nat) (picks : List Int) :
    ∀ (abc hash : strings.String) (e : Int),
      (digest.Write.steps E c sum fuel picks abc hash e).map Step.p <+: picks := by
  induction picks with
  | nil =>
    intro abc hash e
    simp [digest.Write.steps]
  | cons p picks ih =>
    intro abc hash e
    rw [steps_cons, List.map_cons]
    split
    · exact (List.prefix_cons_inj p).2 (ih _ _ _)
    · simp
/-! ## Shuffle and the master alphabet -/

set_option maxRecDepth 1000000 in
/-- C16 (Shuffle and the master alphabet), at an input where the claim fails: the generator
of `demoArgs` (alphabet `a1b?C`), Write of `1 2 3`.  The second digest byte finds the master
alphabet reordered to `Cb1?a` by the shuffle for the first byte, and its working alphabet is
`abC?1`, whereas shuffling a copy of `a1b?C` under the seed of that byte gives `C1a?b`. -/
theorem C16_counterexample :
    (digest.steps demoEnv 5 demoDigest [1, 2, 3])[1]? =
      some { p := 44, seed := 6598539367414,
             master := strings.New asciiUnicode "Cb1?a".toList,
             src := strings.New asciiUnicode "abC?1".toList,
             tried := [0, 0, 0, 0] } ∧
    demoDigest.opts.alphabet = "a1b?C".toList ∧
    ((strings.New asciiUnicode "a1b?C".toList).Shuffle demoEnv
        (demoEnv.randSeed 6598539367414)).2.1 = strings.New asciiUnicode "C1a?b".toList ∧
    strings.New asciiUnicode "abC?1".toList ≠ strings.New asciiUnicode "C1a?b".toList ∧
    strings.New asciiUnicode "Cb1?a".toList ≠ strings.New asciiUnicode "a1b?C".toList :=
  ⟨by decide, by decide, by decide, by decide, by decide⟩

/-- C16, amended.  Shuffle reorders the sequence it is called on in place and returns a copy
of the reordered sequence: both are the same rearrangement of the sequence as it was.  So
within one Write the master alphabet is a rearrangement of the configured alphabet, not
the configured order: the first digest byte finds it as configured, every later byte finds
it as the shuffle for the byte before left it, and for every digest byte the working
alphabet at the start of its attempt loop is the shuffle, under that byte's seed, of the
master alphabet that byte finds. -/
theorem C16_shuffle_in_place (E : Env) (d : digest) (data : List Nat) (fuel : Nat) :
    (∀ (s : strings.String) (rnd : Nat),
      (s.Shuffle E rnd).2.1 = (s.Shuffle E rnd).1 ∧ (s.Shuffle E rnd).1.Perm s) ∧
    (∀ t, (d.steps E fuel data)[0]? = some t →
      t.master = strings.New E.unicode d.opts.alphabet) ∧
    (∀ (k : Nat) (t t1 : Step), (d.steps E fuel data)[k]? = some t →
      (d.steps E fuel data)[k + 1]? = some t1 → t1.master = t.src) ∧
    (∀ t ∈ d.steps E fuel data,
      t.src = (t.master.Shuffle E (E.randSeed t.seed)).2.1 ∧
      t.master.Perm (strings.New E.unicode d.opts.alphabet) ∧
      t.src.Perm (strings.New E.unicode d.opts.alphabet)) := by
  refine ⟨fun s rnd => ⟨rfl, Shuffle_perm E s rnd⟩, ?_, ?_, ?_⟩
  · intro t ht
    exact (steps_zero E _ _ _ _ _ _ _ t ht).1
  · intro k t t1 ht ht1
    exact steps_next E _ _ _ _ _ _ _ k t t1 ht ht1
  · intro t ht
    have := steps_spec E _ _ _ _ _ _ _ t ht
    exact ⟨this.1, this.2.2.1, this.2.2.2.1⟩

/-! ## The index from one attempt to the next -/

set_option maxRecDepth 1000000 in
/-- C17 (the index of attempt `k`), at an input where the claim fails: the generator of
`demoArgs`, Write of `7`.  For the third digest byte, `p = 76`, on a working alphabet of 5
runes, the loop tries index 3 and then index 2, which is `sin(3 + 1, 3)`: the index just
tried plus the attempt number.  The claim gives `sin(76 + 1, 3)`, which is 0. -/
theorem C17_counterexample :
    (digest.steps demoEnv 5 demoDigest [7])[2]? =
      some { p := 76, seed := 7698050995660,
             master := strings.New asciiUnicode "1a?bC".toList,
             src := strings.New asciiUnicode "?C1ab".toList,
             tried := [3, 2] } ∧
    sin demoEnv (76 + 1) ((strings.New asciiUnicode "?C1ab".toList).Len - 1 - 1) = 0 ∧
    sin demoEnv (3 + 1) ((strings.New asciiUnicode "?C1ab".toList).Len - 1 - 1) = 2 ∧
    ([3, 2] : List Int)[1]? ≠
      some (sin demoEnv (76 + 1) ((strings.New asciiUnicode "?C1ab".toList).Len - 1 - 1)) :=
  ⟨by decide, by decide, by decide, by decide⟩

/-- C17, amended.  In the attempt loop for a digest byte with value `p`, the index tried on
attempt 0 is `sin(p, len(src) - 1)`; the index tried on attempt `k + 1` is
`sin(i + (k + 1), len(src) - (k + 1) - 1)`, where `i` is the index tried on attempt `k`
(the loop assigns each index to `p`) and `src` is the working alphabet at the start of the
loop, which has lost one rune for each earlier attempt.  The bytes of the steps are the
picks, in order. -/
theorem C17_index_feeds_back (E : Env) (d : digest) (data : List Nat) (fuel : Nat) :
    (d.steps E (fuel + 1) data).map Step.p <+: digest.Write.picks E d data ∧
    ∀ t ∈ d.steps E (fuel + 1) data,
      t.tried[0]? = some (sin E t.p (t.src.Len - 1)) ∧
      ∀ (k : Nat) (i j : Int), t.tried[k]? = some i → t.tried[k + 1]? = some j →
        j = sin E (i + ((k : Int) + 1)) (t.src.Len - ((k : Int) + 1) - 1) := by
  refine ⟨steps_p E _ _ _ _ _ _ _, ?_⟩
  intro t ht
  obtain ⟨_, _, _, _, h1, htried⟩ := steps_spec E _ _ _ _ _ _ _ t ht
  rw [htried]
  refine ⟨?_, ?_⟩
  · rw [tried_zero, Int.add_zero]
  · intro k i j hi hj
    have := tried_next E d.opts.complex h1 (fuel + 1) t.src t.p 0 k i j hi hj
    rw [Int.zero_add] at this
    exact this

/-! ## Termination -/

/-- C18 (bounded attempts).  For any generator `d`, any data and any `fuel` of at least
`max 1 (len alphabet)`: Write returns; for every digest byte the attempt loop tries at most
`max 1 (len alphabet)` indices, after which a candidate has been accepted or the working
alphabet is empty; an attempt loop on any working alphabet `src` ends within
`max 1 (len src)` iterations; and each attempt on a non-empty working alphabet removes
exactly one rune from it. -/
theorem C18_bounded_attempts (E : Env) (d : digest) (data : List Nat) (fuel : Nat)
    (hf : max 1 d.opts.alphabet.length ≤ fuel) :
    (∃ r, d.Write E fuel data = some r) ∧
    (∀ t ∈ d.steps E fuel data, t.tried.length ≤ max 1 d.opts.alphabet.length) ∧
    (∀ (c : complexity) (hash src : strings.String) (p a e : Int),
      ∃ r, digest.Write.attempts E c hash (max 1 src.length) src p a e = some r) ∧
    (∀ (src : strings.String) (x : Int), src ≠ [] →
      (pick src (sin E x (src.Len - 1))).1.length + 1 = src.length) := by
  refine ⟨Write_terminates E fuel d data hf, ?_, ?_, ?_⟩
  · intro t ht
    obtain ⟨_, _, _, hperm, h1, htried⟩ := steps_spec E _ _ _ _ _ _ _ t ht
    rw [htried]
    have := tried_length_le E d.opts.complex h1 fuel t.src t.p 0
    rw [hperm.length_eq] at this
    simpa only [strings.New, List.length_map] using this
  · intro c hash src p a e
    exact attempts_terminates E c hash _ src p a e (by omega) (by omega)
  · intro src x hne
    have hi := sin_index E x src hne
    exact pick_length src _ hi.1 hi.2

set_option maxRecDepth 1000000 in
/-- C18 at a concrete input: the generator of `demoArgs`, Write of `1`, where the attempt
loop for the third digest byte tries all 5 runes and leaves the alphabet empty. -/
theorem C18_bounded_attempts_witness :
    (max 1 demoDigest.opts.alphabet.length ≤ 5 ∧
      (digest.steps demoEnv 5 demoDigest [1]).map (fun t => t.tried) = [[1], [0], [3, 2, 1, 0, 0]]) ∧
    ((∃ r, demoDigest.Write demoEnv 5 [1] = some r) ∧
    (∀ t ∈ demoDigest.steps demoEnv 5 [1], t.tried.length ≤ max 1 demoDigest.opts.alphabet.length) ∧
    (∀ (c : complexity) (hash src : strings.String) (p a e : Int),
      ∃ r, digest.Write.attempts demoEnv c hash (max 1 src.length) src p a e = some r) ∧
    (∀ (src : strings.String) (x : Int), src ≠ [] →
      (pick src (sin demoEnv x (src.Len - 1))).1.length + 1 = src.length)) :=
  ⟨⟨by decide, by decide⟩, C18_bounded_attempts demoEnv demoDigest [1] 5 (by decide)⟩

/-! ## Rounding to float64 -/

theorem highBit_le (fuel : Nat) : ∀ n : Nat, n ≠ 0 → 2 ^ float64.highBit fuel n ≤ n := by
  induction fuel with
  | zero =>
    intro n hn
    simp only [float64.highBit, Nat.pow_zero]
    omega
  | succ k ih =>
    intro n hn
    unfold float64.highBit
    split
    · simp only [Nat.pow_zero]
      omega
    · have h2 := ih (n / 2) (by omega)
      rw [Nat.pow_succ]
      omega

/-- The spacing is that of the subnormal range, or `n / d` has at least 53 bits above it. -/
theorem spacing_spec (n d : Nat) :
    float64.spacing n d = 0 ∨ 2 ^ (52 + float64.spacing n d) ≤ n / d := by
  by_cases h0 : float64.spacing n d = 0
  · exact Or.inl h0
  · right
    unfold float64.spacing at h0 ⊢
    have hne : n / d ≠ 0 := by
      intro hz
      apply h0
      rw [hz]
      rfl
    have := highBit_le (n / d) (n / d) hne
    have he : 52 + (float64.highBit (n / d) (n / d) - 52) = float64.highBit (n / d) (n / d) := by
      omega
    rw [he]
    exact this

theorem roundHalfEven_le (n d k : Nat) (h : n ≤ k * d) : float64.roundHalfEven n d ≤ k := by
  have hdm := Nat.div_add_mod n d
  have hq : n / d ≤ k := Nat.div_le_of_le_mul (by rw [Nat.mul_comm]; exact h)
  rcases Nat.eq_zero_or_pos d with hd | hd
  · subst hd
    simp only [Nat.mul_zero, Nat.le_zero] at h
    subst h
    simp [float64.roundHalfEven]
  · have hr := Nat.mod_lt n hd
    by_cases hk : n / d = k
    · have hr0 : n % d = 0 := by
        rw [hk, Nat.mul_comm] at hdm
        omega
      unfold float64.roundHalfEven
      rw [hr0, if_pos (by omega)]
      exact hq
    · unfold float64.roundHalfEven
      split
      · exact hq
      · split
        · omega
        · split <;> omega

theorem le_roundHalfEven (n d k : Nat) (hd : 0 < d) (h : k * d ≤ n) :
    k ≤ float64.roundHalfEven n d := by
  have hq : k ≤ n / d := (Nat.le_div_iff_mul_le hd).2 h
  unfold float64.roundHalfEven
  split
  · exact hq
  · split
    · omega
    · split <;> omega

theorem roundNat_le (n d m e : Nat) (hm : m < 2 ^ 53) (h : n ≤ m * 2 ^ e * d) :
    float64.roundNat n d ≤ m * 2 ^ e := by
  unfold float64.roundNat
  by_cases hj : float64.spacing n d ≤ e
  · obtain ⟨t, ht⟩ := Nat.exists_eq_add_of_le hj
    have hsplit : m * 2 ^ e = m * 2 ^ t * 2 ^ float64.spacing n d := by
      rw [ht, Nat.pow_add, Nat.mul_assoc, Nat.mul_comm (2 ^ float64.spacing n d)]
    rw [hsplit]
    apply Nat.mul_le_mul_right
    apply roundHalfEven_le
    calc n ≤ m * 2 ^ e * d := h
      _ = m * 2 ^ t * (d * 2 ^ float64.spacing n d) := by
        rw [hsplit]
        ring
  · exfalso
    rcases spacing_spec n d with h0 | hbig
    · omega
    · have hdiv : n / d ≤ m * 2 ^ e := Nat.div_le_of_le_mul (by rw [Nat.mul_comm]; exact h)
      have hlt : m * 2 ^ e < 2 ^ 53 * 2 ^ e := Nat.mul_lt_mul_of_pos_right hm (Nat.two_pow_pos _)
      have hpow : 2 ^ 53 * 2 ^ e ≤ 2 ^ (52 + float64.spacing n d) := by
        rw [← Nat.pow_add]
        exact Nat.pow_le_pow_right (by decide) (by omega)
      omega

theorem le_roundNat (n d m e : Nat) (hd : 0 < d) (hm : m < 2 ^ 53) (h : m * 2 ^ e * d ≤ n) :
    m * 2 ^ e ≤ float64.roundNat n d := by
  unfold float64.roundNat
  by_cases hj : float64.spacing n d ≤ e
  · obtain ⟨t, ht⟩ := Nat.exists_eq_add_of_le hj
    have hsplit : m * 2 ^ e = m * 2 ^ t * 2 ^ float64.spacing n d := by
      rw [ht, Nat.pow_add, Nat.mul_assoc, Nat.mul_comm (2 ^ float64.spacing n d)]
    rw [hsplit]
    apply Nat.mul_le_mul_right
    apply le_roundHalfEven _ _ _ (Nat.mul_pos hd (Nat.two_pow_pos _))
    calc m * 2 ^ t * (d * 2 ^ float64.spacing n d) = m * 2 ^ e * d := by
          rw [hsplit]
          ring
      _ ≤ n := h
  · rcases spacing_spec n d with h0 | hbig
    · omega
    · have hbig2 : 2 ^ (52 + float64.spacing n d) * d ≤ n := (Nat.le_div_iff_mul_le hd).1 hbig
      have h52 : 2 ^ 52 ≤ float64.roundHalfEven n (d * 2 ^ float64.spacing n d) := by
        apply le_roundHalfEven _ _ _ (Nat.mul_pos hd (Nat.two_pow_pos _))
        calc 2 ^ 52 * (d * 2 ^ float64.spacing n d)
            = 2 ^ (52 + float64.spacing n d) * d := by
              rw [Nat.pow_add]
              ring
          _ ≤ n := hbig2
      have hlt : m * 2 ^ e < 2 ^ 53 * 2 ^ e := Nat.mul_lt_mul_of_pos_right hm (Nat.two_pow_pos _)
      have hpow : 2 ^ 53 * 2 ^ e ≤ 2 ^ (52 + float64.spacing n d) := by
        rw [← Nat.pow_add]
        exact Nat.pow_le_pow_right (by decide) (by omega)
      have hmul := Nat.mul_le_mul_right (2 ^ float64.spacing n d) h52
      rw [← Nat.pow_add] at hmul
      omega
theorem round_le (n : Int) (d : Nat) (hi : Int) (hd : 0 < d) (hv : float64.IsValue hi)
    (h : n ≤ hi * d) : float64.round n d ≤ hi := by
  obtain ⟨m, e, hm, habs⟩ := hv
  have hdz : (0 : Int) < (d : Int) := by exact_mod_cast hd
  unfold float64.round
  by_cases hn : 0 ≤ n
  · rw [if_pos hn]
    have hhi : 0 ≤ hi := by
      by_contra hneg
      have : hi * d < 0 := Int.mul_neg_of_neg_of_pos (by omega) hdz
      omega
    lift n to Nat using hn
    lift hi to Nat using hhi
    rw [Int.natAbs_ofNat] at habs
    rw [Int.toNat_ofNat]
    have h2 : n ≤ m * 2 ^ e * d := by
      rw [← habs]
      exact_mod_cast h
    have := roundNat_le n d m e hm h2
    rw [← habs] at this
    exact_mod_cast this
  · rw [if_neg hn]
    by_cases hhi : 0 ≤ hi
    · have : (0 : Int) ≤ (float64.roundNat (-n).toNat d : Int) := Int.ofNat_nonneg _
      omega
    · obtain ⟨k, hk⟩ : ∃ k : Nat, n = -(k : Int) := ⟨(-n).toNat, by omega⟩
      obtain ⟨g, hg⟩ : ∃ g : Nat, hi = -(g : Int) := ⟨(-hi).toNat, by omega⟩
      subst hk hg
      rw [Int.natAbs_neg, Int.natAbs_ofNat] at habs
      rw [Int.neg_neg, Int.toNat_ofNat]
      have h2 : m * 2 ^ e * d ≤ k := by
        rw [← habs]
        have : (g : Int) * d ≤ k := by
          rw [Int.neg_mul] at h
          omega
        exact_mod_cast this
      have := le_roundNat k d m e hd hm h2
      rw [← habs] at this
      have h3 : (g : Int) ≤ (float64.roundNat k d : Int) := by exact_mod_cast this
      omega

theorem roundNat_zero (d : Nat) : float64.roundNat 0 d = 0 := by
  have := roundNat_le 0 d 0 0 (by decide) (by simp)
  simpa using this

theorem round_neg (n : Int) (d : Nat) : float64.round (-n) d = -float64.round n d := by
  unfold float64.round
  rcases Int.lt_trichotomy n 0 with hn | hn | hn
  · rw [if_pos (by omega), if_neg (by omega), Int.neg_neg]
  · subst hn
    simp [roundNat_zero]
  · rw [if_neg (by omega), if_pos (by omega), Int.neg_neg]

theorem isValue_neg (v : Int) (hv : float64.IsValue v) : float64.IsValue (-v) := by
  obtain ⟨m, e, hm, habs⟩ := hv
  exact ⟨m, e, hm, by rw [Int.natAbs_neg]; exact habs⟩

theorem le_round (n : Int) (d : Nat) (lo : Int) (hd : 0 < d) (hv : float64.IsValue lo)
    (h : lo * d ≤ n) : lo ≤ float64.round n d := by
  have := round_le (-n) d (-lo) hd (isValue_neg lo hv) (by rw [Int.neg_mul]; omega)
  rw [round_neg] at this
  omega

/-- A value that is itself a float64 is left as it is. -/
theorem round_exact (v : Int) (d : Nat) (hd : 0 < d) (hv : float64.IsValue v) :
    float64.round (v * d) d = v :=
  Int.le_antisymm (round_le _ d v hd hv (Int.le_refl _)) (le_round _ d v hd hv (Int.le_refl _))

theorem isValue_mul_pow (max : Int) (h0 : 0 ≤ max) (h1 : max < 2 ^ 53) (j : Nat) :
    float64.IsValue (max * (2 ^ j : Nat)) := by
  lift max to Nat using h0
  refine ⟨max, j, by exact_mod_cast h1, ?_⟩
  rw [← Int.natCast_mul, Int.natAbs_ofNat]

set_option exponentiation.threshold 3000 in
theorem one_eq_two_mul : (float64.one : Int) = ((2 ^ 1073 : Nat) : Int) * 2 := by
  unfold float64.one
  rw [show (1074 : Nat) = 1073 + 1 from rfl, Nat.pow_succ, Int.natCast_mul]
  rfl

/-- The four rounded operations, on a float64 `M = 2 * H` with `H` a float64 too and a
factor `num / d` in `[-1, 1]`: the sum stays within `[0, M]`. -/
theorem sin64_core (num : Int) (d : Nat) (M H : Int) (hd : 0 < d)
    (hnum : -(d : Int) ≤ num ∧ num ≤ d) (hM : M = H * ((2 : Nat) : Int)) (hH : 0 ≤ H)
    (hvM : float64.IsValue M) (hvH : float64.IsValue H) :
    0 ≤ float64.round (float64.round (float64.round (num * M) d) 2 + float64.round M 2) 1 ∧
    float64.round (float64.round (float64.round (num * M) d) 2 + float64.round M 2) 1 ≤ M := by
  have hM0 : 0 ≤ M := by
    rw [hM]
    exact Int.mul_nonneg hH (by decide)
  have ha1 : float64.round (num * M) d ≤ M :=
    round_le _ _ _ hd hvM (by nlinarith [hnum.2])
  have ha2 : -M ≤ float64.round (num * M) d :=
    le_round _ _ _ hd (isValue_neg _ hvM) (by nlinarith [hnum.1])
  have hb1 : float64.round (float64.round (num * M) d) 2 ≤ H :=
    round_le _ 2 _ (by decide) hvH (by rw [← hM]; exact ha1)
  have hb2 : -H ≤ float64.round (float64.round (num * M) d) 2 :=
    le_round _ 2 _ (by decide) (isValue_neg _ hvH) (by rw [Int.neg_mul, ← hM]; exact ha2)
  have hc : float64.round M 2 = H := by
    rw [hM]
    exact round_exact H 2 (by decide) hvH
  rw [hc]
  have h2 : ((2 : Nat) : Int) = 2 := rfl
  have h1 : ((1 : Nat) : Int) = 1 := rfl
  constructor
  · exact le_round _ 1 0 (by decide) ⟨0, 0, by decide, rfl⟩ (by rw [Int.zero_mul]; omega)
  · have hsum : float64.round (float64.round (num * M) d) 2 + H ≤ M := by
      rw [h2] at hM
      omega
    exact round_le _ 1 _ (by decide) hvM (by rw [h1, Int.mul_one]; exact hsum)

set_option exponentiation.threshold 3000 in
/-- The float64 computation stays in range below `2^53`. -/
theorem sin64_range (E : Env) (x max : Int) (h0 : 0 ≤ max) (h1 : max < 2 ^ 53) :
    0 ≤ sin64 E x max ∧ sin64 E x max ≤ max := by
  have hden := E.mathSin_den x
  have hrange := E.mathSin_range x
  have hdpos : 0 < (E.mathSin x).den.toNat := by omega
  have hdcast : (((E.mathSin x).den.toNat : Nat) : Int) = (E.mathSin x).den := by omega
  have hG : (0 : Int) < (float64.one : Int) := Int.natCast_pos.2 (Nat.two_pow_pos 1074)
  have hvm : float64.IsValue (max * (float64.one : Nat)) := isValue_mul_pow max h0 h1 1074
  have hvh : float64.IsValue (max * ((2 ^ 1073 : Nat) : Int)) := isValue_mul_pow max h0 h1 1073
  have hhalf : max * (float64.one : Int) = max * ((2 ^ 1073 : Nat) : Int) * ((2 : Nat) : Int) := by
    rw [one_eq_two_mul, Int.mul_assoc]
    rfl
  have hm : float64.round (max * float64.one) 1 = max * float64.one := by
    have := round_exact (max * float64.one) 1 (by decide) hvm
    rw [Nat.cast_one, Int.mul_one] at this
    exact this
  have hcore := sin64_core (E.mathSin x).num (E.mathSin x).den.toNat (max * float64.one)
    (max * ((2 ^ 1073 : Nat) : Int)) hdpos (by rw [hdcast]; exact hrange) hhalf
    (Int.mul_nonneg h0 (Int.ofNat_nonneg _)) hvm hvh
  unfold sin64
  simp only []
  rw [hm, Int.tdiv_eq_ediv hcore.1 (le_of_lt hG)]
  exact ⟨Int.ediv_nonneg hcore.1 (le_of_lt hG), Int.ediv_le_of_le_mul hG hcore.2⟩
/-- On a non-empty working alphabet of at most `2^53` runes the index computed in float64
is in range, and neither Pick nor Remove takes its out-of-range branch. -/
theorem sin64_index (E : Env) (x : Int) (src : strings.String) (hne : src ≠ [])
    (hlen : (src.length : Int) ≤ 2 ^ 53) :
    (0 ≤ sin64 E x (src.Len - 1) ∧ sin64 E x (src.Len - 1) ≤ src.Len - 1) ∧
    (src.Pick (sin64 E x (src.Len - 1))).2 = true ∧
    (src.Remove (sin64 E x (src.Len - 1))).2 = true := by
  have hpos : 0 < src.length := List.length_pos.2 hne
  have hr := sin64_range E x (src.Len - 1)
    (by show (0 : Int) ≤ (src.length : Int) - 1; omega)
    (by show (src.length : Int) - 1 < 2 ^ 53; omega)
  have h2 : sin64 E x (src.Len - 1) < (src.length : Int) := by
    have := hr.2
    change sin64 E x (src.Len - 1) ≤ (src.length : Int) - 1 at this
    omega
  refine ⟨hr, ?_, ?_⟩
  · unfold String.Pick
    rw [if_neg (by omega)]
  · unfold String.Remove
    rw [if_neg (by omega)]

set_option maxRecDepth 1000000 in
set_option exponentiation.threshold 3000 in
/-- C19 (sin stays in range), at an input where the code departs from it.  Whenever
`math.Sin(float64(x))` is `1.0`, `sin(x, 9007199254740995)` as the source computes it in
float64 is `9007199254740996`, one more than `max`: `float64(max)` rounds `2^53 + 3` up to
`2^53 + 4`, and the product, the halves and their sum are exact from there. -/
theorem C19_sin_exceeds_max (E : Env) (x : Int) (h : E.mathSin x = ⟨1, 1⟩) :
    sin64 E x 9007199254740995 = 9007199254740996 ∧
    ¬ (sin64 E x 9007199254740995 ≤ 9007199254740995) := by
  have hv : sin64 E x 9007199254740995 = 9007199254740996 := by
    unfold sin64
    rw [h]
    decide
  rw [hv]
  exact ⟨rfl, by decide⟩

set_option maxRecDepth 1000000 in
set_option exponentiation.threshold 3000 in
/-- C19 at a concrete input: `x = 288632526`, where `math.Sin` is `1.0` in float64. -/
theorem C19_sin_exceeds_max_witness :
    (peakEnv.mathSin 288632526 = ⟨1, 1⟩ ∧
      sin peakEnv 288632526 9007199254740995 = 9007199254740995) ∧
    (sin64 peakEnv 288632526 9007199254740995 = 9007199254740996 ∧
      ¬ (sin64 peakEnv 288632526 9007199254740995 ≤ 9007199254740995)) :=
  ⟨⟨by decide, by decide⟩, C19_sin_exceeds_max peakEnv 288632526 (by decide)⟩

end swca1
